import Mathlib

/-!
Verification of the bitarray-cpp repository (bitarray.h / bitarray.cpp).

A `bit_array_c` packs `m_NumBits` logical bits into a vector of unsigned
chars `m_Array`; bit 0 is the most significant bit of char 0.  The C++
methods are embedded shallowly below: every unchecked `std::vector`
subscript is modelled by `Option`-returning access (`getByte` / `setByte`),
so an out-of-bounds read or write, which is undefined behavior in the
original, surfaces as `none`.  Unsigned-char stores truncate with `% 256`;
the `unsigned int` subtraction `m_NumBits - 1` wraps modulo `2 ^ 32`
(`pred32`).  Bytes are modelled as `Nat` kept below 256 by the operations.
-/

set_option maxHeartbeats 1600000
set_option maxRecDepth 8000

namespace BitArrayCpp

/-- CHAR_BIT, bits per storage unit. -/
def CHAR_BIT : Nat := 8

/-- UCHAR_MAX, largest unsigned char value. -/
def UCHAR_MAX : Nat := 255

/-- Modulus of the 32-bit unsigned int type. -/
def U32 : Nat := 4294967296

/-- The value of the unsigned int expression `n - 1` (wraps at `n = 0`). -/
def pred32 (n : Nat) : Nat := (n + (U32 - 1)) % U32

/-- Macro BIT_CHAR: index of the char containing a bit. -/
def BIT_CHAR (bit : Nat) : Nat := bit / CHAR_BIT

/-- Macro BIT_IN_CHAR: mask selecting a bit inside its char (MSB first). -/
def BIT_IN_CHAR (bit : Nat) : Nat := 1 <<< (CHAR_BIT - 1 - bit % CHAR_BIT)

/-- Macro BITS_TO_CHARS: chars needed for a number of bits.  For the C++
int argument 0 this is `((0 - 1) / 8) + 1 = 1` (division truncating toward
zero); Nat truncated subtraction gives the same value 1, and the two agree
on every nonnegative argument. -/
def BITS_TO_CHARS (bits : Nat) : Nat := (bits - 1) / CHAR_BIT + 1

/-- Macro MS_BIT: most significant bit of a char. -/
def MS_BIT : Nat := 1 <<< (CHAR_BIT - 1)

/-- The state of a `bit_array_c` object. -/
structure bit_array_c where
  m_NumBits : Nat
  m_Array : List Nat
deriving DecidableEq, Repr

/-- Unchecked `std::vector` read `m_Array[i]`; `none` models the
out-of-bounds undefined behavior. -/
def getByte (a : List Nat) (i : Nat) : Option Nat := a[i]?

/-- Unchecked `std::vector` write `m_Array[i] = v`; `none` models the
out-of-bounds undefined behavior. -/
def setByte (a : List Nat) (i : Nat) (v : Nat) : Option (List Nat) :=
  if i < a.length then some (a.set i v) else none

/-- The constructor loop `for (i = 0; i < n; ++i) m_Array.push_back(0)`. -/
def pushZeros (acc : List Nat) : Nat → List Nat
  | 0 => acc
  | k + 1 => pushZeros (acc ++ [0]) k

/-- Constructor `bit_array_c(int numBits)`: pushes `BITS_TO_CHARS numBits`
zero chars. -/
def mkBitArray (numBits : Nat) : bit_array_c :=
  { m_NumBits := numBits, m_Array := pushZeros [] (BITS_TO_CHARS numBits) }

/-- Constructor `bit_array_c(const std::vector<unsigned char> vect, int
numBits)`: copies the buffer verbatim. -/
def mkFromVect (vect : List Nat) (numBits : Nat) : bit_array_c :=
  { m_NumBits := numBits, m_Array := vect }

/-- Method `SetAll`: every char becomes UCHAR_MAX, then the spare bits of
the final used char are zeroed when `m_NumBits` is not a multiple of
CHAR_BIT. -/
def SetAll (b : bit_array_c) : Option bit_array_c :=
  let arr := List.replicate b.m_Array.length UCHAR_MAX
  let bits := b.m_NumBits % CHAR_BIT
  if bits ≠ 0 then do
    let mask := (UCHAR_MAX <<< (CHAR_BIT - bits)) % 256
    let arr2 ← setByte arr (BIT_CHAR (pred32 b.m_NumBits)) mask
    return { b with m_Array := arr2 }
  else
    return { b with m_Array := arr }

/-- Method `ClearAll`: every char becomes 0. -/
def ClearAll (b : bit_array_c) : bit_array_c :=
  { b with m_Array := List.replicate b.m_Array.length 0 }

/-- Method `SetBit`: out-of-range indices are a silent no-op. -/
def SetBit (b : bit_array_c) (bit : Nat) : Option bit_array_c :=
  if b.m_NumBits ≤ bit then some b
  else do
    let c ← getByte b.m_Array (BIT_CHAR bit)
    let arr ← setByte b.m_Array (BIT_CHAR bit) (c ||| BIT_IN_CHAR bit)
    return { b with m_Array := arr }

/-- Method `ClearBit`: the mask `~BIT_IN_CHAR(bit)` stored in an unsigned
char equals `255 - BIT_IN_CHAR bit`. -/
def ClearBit (b : bit_array_c) (bit : Nat) : Option bit_array_c :=
  if b.m_NumBits ≤ bit then some b
  else do
    let mask := UCHAR_MAX - BIT_IN_CHAR bit
    let c ← getByte b.m_Array (BIT_CHAR bit)
    let arr ← setByte b.m_Array (BIT_CHAR bit) (c &&& mask)
    return { b with m_Array := arr }

/-- Method `operator[]`: unchecked read of one bit. -/
def getBit (b : bit_array_c) (bit : Nat) : Option Bool := do
  let c ← getByte b.m_Array (BIT_CHAR bit)
  return ((c &&& BIT_IN_CHAR bit) != 0)

/-- Method `operator==`. -/
def beq (a b : bit_array_c) : Bool :=
  if a.m_NumBits ≠ b.m_NumBits then false
  else decide (a.m_Array = b.m_Array)

/-- Lexicographic order on `std::vector<unsigned char>`
(`std::lexicographical_compare` semantics of `operator<`). -/
def lexLt : List Nat → List Nat → Bool
  | _, [] => false
  | [], _ :: _ => true
  | a :: as, b :: bs => if a < b then true else if b < a then false else lexLt as bs

/-- Method `operator<`. -/
def blt (a b : bit_array_c) : Bool :=
  if a.m_NumBits ≠ b.m_NumBits then false
  else lexLt a.m_Array b.m_Array

/-- Method `operator<=`; `v <= w` on vectors is `!(w < v)`. -/
def ble (a b : bit_array_c) : Bool :=
  if a.m_NumBits ≠ b.m_NumBits then false
  else !(lexLt b.m_Array a.m_Array)

/-- Method `operator>`; `v > w` on vectors is `w < v`. -/
def bgt (a b : bit_array_c) : Bool :=
  if a.m_NumBits ≠ b.m_NumBits then false
  else lexLt b.m_Array a.m_Array

/-- Method `operator>=`; `v >= w` on vectors is `!(v < w)`. -/
def bge (a b : bit_array_c) : Bool :=
  if a.m_NumBits ≠ b.m_NumBits then false
  else !(lexLt a.m_Array b.m_Array)

/-- Method `Not` (in-place `~=`): complement every char (`~c` stored in an
unsigned char is `255 - c`), then zero the spare bits of the final used
char. -/
def bitNot (b : bit_array_c) : Option bit_array_c :=
  if b.m_Array.length = 0 then some b
  else
    let arr := b.m_Array.map (fun c => UCHAR_MAX - c)
    let bits := b.m_NumBits % CHAR_BIT
    if bits ≠ 0 then do
      let mask := (UCHAR_MAX <<< (CHAR_BIT - bits)) % 256
      let c ← getByte arr (BIT_CHAR (pred32 b.m_NumBits))
      let arr2 ← setByte arr (BIT_CHAR (pred32 b.m_NumBits)) (c &&& mask)
      return { b with m_Array := arr2 }
    else
      return { b with m_Array := arr }

/-- Method `operator~`: copies the object, then applies `Not` to the copy. -/
def notOp (b : bit_array_c) : Option bit_array_c :=
  bitNot { m_NumBits := b.m_NumBits, m_Array := b.m_Array }

/-- The shared loop of `operator&=` / `operator^=` / `operator|=`:
`for (i = 0; i < m_Array.size(); i++) m_Array[i] = f(m_Array[i], src[i])`;
reading `src[i]` past the source is out of bounds. -/
def binopLoop (f : Nat → Nat → Nat) : List Nat → List Nat → Option (List Nat)
  | [], _ => some []
  | _ :: _, [] => none
  | a :: as, s :: ss => do
    let rest ← binopLoop f as ss
    return f a s :: rest

/-- Method `operator&=`: silent no-op when the sizes differ. -/
def andAssign (b src : bit_array_c) : Option bit_array_c :=
  if b.m_NumBits ≠ src.m_NumBits then some b
  else do
    let arr ← binopLoop (· &&& ·) b.m_Array src.m_Array
    return { b with m_Array := arr }

/-- Method `operator^=`: silent no-op when the sizes differ. -/
def xorAssign (b src : bit_array_c) : Option bit_array_c :=
  if b.m_NumBits ≠ src.m_NumBits then some b
  else do
    let arr ← binopLoop (· ^^^ ·) b.m_Array src.m_Array
    return { b with m_Array := arr }

/-- Method `operator|=`: silent no-op when the sizes differ. -/
def orAssign (b src : bit_array_c) : Option bit_array_c :=
  if b.m_NumBits ≠ src.m_NumBits then some b
  else do
    let arr ← binopLoop (· ||| ·) b.m_Array src.m_Array
    return { b with m_Array := arr }

/-- Method `operator=`: silent no-op on size mismatch or when either array
is unallocated. -/
def assign (b src : bit_array_c) : bit_array_c :=
  if b.m_NumBits ≠ src.m_NumBits then b
  else if b.m_Array.length = 0 ∨ src.m_Array.length = 0 then b
  else { b with m_Array := src.m_Array }

/-- The loop of prefix `operator++`, walking from char `i` toward char 0;
after the first carry the remaining chars use every bit.  The store
`m_Array[i] + one` truncates to an unsigned char. -/
def incLoop : List Nat → Nat → Nat → Nat → Option (List Nat)
  | arr, maxValue, one, 0 => do
    let c ← getByte arr 0
    if c ≠ maxValue then setByte arr 0 ((c + one) % 256)
    else setByte arr 0 0
  | arr, maxValue, one, i + 1 => do
    let c ← getByte arr (i + 1)
    if c ≠ maxValue then setByte arr (i + 1) ((c + one) % 256)
    else do
      let arr2 ← setByte arr (i + 1) 0
      incLoop arr2 UCHAR_MAX 1 i

/-- Method prefix `operator++`: rollover increment.  The loop starts at
`BIT_CHAR (m_NumBits - 1)` with the unsigned subtraction wrapping at
`m_NumBits = 0`. -/
def increment (b : bit_array_c) : Option bit_array_c :=
  if b.m_Array.length = 0 then some b
  else
    let bits := b.m_NumBits % CHAR_BIT
    let maxValue := if bits ≠ 0 then (UCHAR_MAX <<< (CHAR_BIT - bits)) % 256 else UCHAR_MAX
    let one := if bits ≠ 0 then (1 <<< (CHAR_BIT - bits)) % 256 else 1
    do
      let arr ← incLoop b.m_Array maxValue one (BIT_CHAR (pred32 b.m_NumBits))
      return { b with m_Array := arr }

/-- The loop of prefix `operator--`, the borrow-propagating mirror of
`incLoop`. -/
def decLoop : List Nat → Nat → Nat → Nat → Option (List Nat)
  | arr, maxValue, one, 0 => do
    let c ← getByte arr 0
    if one ≤ c then setByte arr 0 (c - one)
    else setByte arr 0 maxValue
  | arr, maxValue, one, i + 1 => do
    let c ← getByte arr (i + 1)
    if one ≤ c then setByte arr (i + 1) (c - one)
    else do
      let arr2 ← setByte arr (i + 1) maxValue
      decLoop arr2 UCHAR_MAX 1 i

/-- Method prefix `operator--`: rollover decrement. -/
def decrement (b : bit_array_c) : Option bit_array_c :=
  if b.m_Array.length = 0 then some b
  else
    let bits := b.m_NumBits % CHAR_BIT
    let maxValue := if bits ≠ 0 then (UCHAR_MAX <<< (CHAR_BIT - bits)) % 256 else UCHAR_MAX
    let one := if bits ≠ 0 then (1 <<< (CHAR_BIT - bits)) % 256 else 1
    do
      let arr ← decLoop b.m_Array maxValue one (BIT_CHAR (pred32 b.m_NumBits))
      return { b with m_Array := arr }

/-- The `operator<<=` byte-move copy loop
`for (i = 0; i + chars < size; i++) m_Array[i] = m_Array[i + chars]`.
The guard keeps every access in bounds; the fuel argument only bounds the
iteration count and is instantiated with the array length, which the loop
can never exceed. -/
def shlCopy (chars : Nat) : Nat → Nat → List Nat → List Nat
  | 0, _, a => a
  | fuel + 1, i, a =>
    if i + chars < a.length then
      shlCopy chars fuel (i + 1) (a.set i (a.getD (i + chars) 0))
    else a

/-- The `operator<<=` zero-fill loop
`for (i = size; chars > 0; chars--) m_Array[i - chars] = 0`, where
`i - chars` is computed in unsigned int arithmetic and wraps when
`chars > i`. -/
def shlZeroLoop (i : Nat) : List Nat → Nat → Option (List Nat)
  | a, 0 => some a
  | a, c + 1 => do
    let a2 ← setByte a ((i + (U32 - (c + 1) % U32)) % U32) 0
    shlZeroLoop i a2 c

/-- The inner single-bit loop of `operator<<=`:
`for (j = 0; j < limit; j++) { m_Array[j] <<= 1; if (m_Array[j+1] & MS_BIT)
m_Array[j] |= 0x01; }`.  Fuel is instantiated with `limit`, the exact
iteration count. -/
def shlInner (limit : Nat) : Nat → Nat → List Nat → Option (List Nat)
  | 0, _, a => some a
  | fuel + 1, j, a =>
    if j < limit then do
      let c ← getByte a j
      let a1 ← setByte a j ((c <<< 1) % 256)
      let d ← getByte a1 (j + 1)
      let a2 ←
        if d &&& MS_BIT ≠ 0 then do
          let c1 ← getByte a1 j
          setByte a1 j (c1 ||| 1)
        else some a1
      shlInner limit fuel (j + 1) a2
    else some a

/-- The outer single-bit loop of `operator<<=`: after each pass of
`shlInner` the final used char `m_Array[BIT_CHAR (m_NumBits - 1)]` is
shifted left once. -/
def shlBitPhase (last : Nat) : Nat → List Nat → Option (List Nat)
  | 0, a => some a
  | s + 1, a => do
    let a1 ← shlInner last last 0 a
    let c ← getByte a1 last
    let a2 ← setByte a1 last ((c <<< 1) % 256)
    shlBitPhase last s a2

/-- Method `operator<<=`.  Note that the all-bits-shifted-off guard tests
the residue `shifts % CHAR_BIT` against `m_NumBits`, the shift count having
already been reduced. -/
def shlAssign (b : bit_array_c) (k : Nat) : Option bit_array_c :=
  let chars := k / CHAR_BIT
  let shifts := k % CHAR_BIT
  if b.m_NumBits ≤ shifts then some (ClearAll b)
  else do
    let a1 ←
      if 0 < chars then
        let ac := shlCopy chars b.m_Array.length 0 b.m_Array
        shlZeroLoop ac.length ac chars
      else some b.m_Array
    let a2 ← shlBitPhase (BIT_CHAR (pred32 b.m_NumBits)) shifts a1
    return { b with m_Array := a2 }

/-- The `operator>>=` byte-move copy loop
`for (i = BIT_CHAR(m_NumBits - 1); i - chars >= 0; i--)
m_Array[i] = m_Array[i - chars]` with signed int index arithmetic.  Fuel is
instantiated with the starting index plus one, the exact iteration bound. -/
def shrCopy (chars : Nat) : Nat → Nat → List Nat → Option (List Nat)
  | 0, _, a => some a
  | fuel + 1, i, a =>
    if chars ≤ i then do
      let c ← getByte a (i - chars)
      let a1 ← setByte a i c
      shrCopy chars fuel (i - 1) a1
    else some a

/-- The `operator>>=` zero-fill loop
`for (; chars > 0; chars--) m_Array[chars - 1] = 0`. -/
def shrZeroLoop : List Nat → Nat → Option (List Nat)
  | a, 0 => some a
  | a, c + 1 => do
    let a1 ← setByte a c 0
    shrZeroLoop a1 c

/-- The inner single-bit loop of `operator>>=`:
`for (j = BIT_CHAR(m_NumBits - 1); j > 0; j--) { m_Array[j] >>= 1;
if (m_Array[j-1] & 0x01) m_Array[j] |= MS_BIT; }`. -/
def shrInner : Nat → Nat → List Nat → Option (List Nat)
  | 0, _, a => some a
  | fuel + 1, j, a =>
    if 0 < j then do
      let c ← getByte a j
      let a1 ← setByte a j (c >>> 1)
      let d ← getByte a1 (j - 1)
      let a2 ←
        if d &&& 1 ≠ 0 then do
          let c1 ← getByte a1 j
          setByte a1 j (c1 ||| MS_BIT)
        else some a1
      shrInner fuel (j - 1) a2
    else some a

/-- The outer single-bit loop of `operator>>=`: after each pass of
`shrInner`, char 0 is shifted right once. -/
def shrBitPhase (last : Nat) : Nat → List Nat → Option (List Nat)
  | 0, a => some a
  | s + 1, a => do
    let a1 ← shrInner last last a
    let c ← getByte a1 0
    let a2 ← setByte a1 0 (c >>> 1)
    shrBitPhase last s a2

/-- Method `operator>>=`: byte move, zero fill, single-bit shifts, then the
spare bits of the final used char are re-zeroed.  The same reduced-residue
guard as in `operator<<=` applies. -/
def shrAssign (b : bit_array_c) (k : Nat) : Option bit_array_c :=
  let chars := k / CHAR_BIT
  let shifts := k % CHAR_BIT
  if b.m_NumBits ≤ shifts then some (ClearAll b)
  else do
    let a1 ←
      if 0 < chars then do
        let ac ← shrCopy chars (BIT_CHAR (pred32 b.m_NumBits) + 1)
          (BIT_CHAR (pred32 b.m_NumBits)) b.m_Array
        shrZeroLoop ac chars
      else some b.m_Array
    let a2 ← shrBitPhase (BIT_CHAR (pred32 b.m_NumBits)) shifts a1
    let bits := b.m_NumBits % CHAR_BIT
    if bits ≠ 0 then do
      let mask := (UCHAR_MAX <<< (CHAR_BIT - bits)) % 256
      let c ← getByte a2 (BIT_CHAR (pred32 b.m_NumBits))
      let a3 ← setByte a2 (BIT_CHAR (pred32 b.m_NumBits)) (c &&& mask)
      return { b with m_Array := a3 }
    else
      return { b with m_Array := a2 }

/-- Reading bit `p` the way `operator[]` does, with 0 for missing chars;
used to state specifications. -/
def bitAt (b : bit_array_c) (p : Nat) : Bool :=
  (b.m_Array.getD (BIT_CHAR p) 0 &&& BIT_IN_CHAR p) != 0

/-- Horner evaluation of bits `0, …, p-1` with bit 0 most significant. -/
def toValAux (b : bit_array_c) : Nat → Nat
  | 0 => 0
  | p + 1 => 2 * toValAux b p + (if bitAt b p then 1 else 0)

/-- The unsigned value of the array: bits `0, …, m_NumBits - 1`, bit 0 most
significant. -/
def toVal (b : bit_array_c) : Nat := toValAux b b.m_NumBits

/-- Big-endian base-256 value of a char list. -/
def beVal (l : List Nat) : Nat := l.foldl (fun acc c => acc * 256 + c) 0

/-- Invariant A of the specification: the storage holds exactly
`ceil (length / CHAR_BIT)` chars. -/
def StorageOk (b : bit_array_c) : Prop :=
  b.m_Array.length = (b.m_NumBits + 7) / 8

/-- Type-level invariant of `std::vector<unsigned char>`: every stored
char is below 256. -/
def Bytes256 (b : bit_array_c) : Prop := ∀ c ∈ b.m_Array, c < 256

/-- Type-level invariant of the `unsigned int` field `m_NumBits`. -/
def NumBits32 (b : bit_array_c) : Prop := b.m_NumBits < U32

/-- Invariant B of the specification, exactly as the claims phrase it:
every spare bit in the final storage unit, that is every bit position at or
beyond `m_NumBits` that falls inside the last char, is zero. -/
def SpareZero (b : bit_array_c) : Prop :=
  ∀ p < 8 * b.m_Array.length, b.m_NumBits ≤ p → 8 * b.m_Array.length ≤ p + 8 →
    b.m_Array.getD (BIT_CHAR p) 0 &&& BIT_IN_CHAR p = 0

instance (b : bit_array_c) : Decidable (SpareZero b) := by
  unfold SpareZero; infer_instance

/-- A legitimate `bit_array_c` state: the storage invariant of the data
model together with the two type-level invariants. -/
def WF (b : bit_array_c) : Prop :=
  StorageOk b ∧ Bytes256 b ∧ NumBits32 b

instance (b : bit_array_c) : Decidable (StorageOk b) := by
  unfold StorageOk; infer_instance

instance (b : bit_array_c) : Decidable (Bytes256 b) := by
  unfold Bytes256; infer_instance

instance (b : bit_array_c) : Decidable (NumBits32 b) := by
  unfold NumBits32; infer_instance

instance (b : bit_array_c) : Decidable (WF b) := by
  unfold WF; infer_instance

/-! ### Basic lemmas about the embedding -/

theorem pushZeros_eq (k : Nat) : ∀ acc, pushZeros acc k = acc ++ List.replicate k 0 := by
  induction k with
  | zero => intro acc; simp [pushZeros]
  | succ k ih =>
    intro acc
    rw [pushZeros, ih]
    simp [List.replicate_succ]

theorem mkBitArray_numBits (n : Nat) : (mkBitArray n).m_NumBits = n := rfl

theorem mkBitArray_array (n : Nat) :
    (mkBitArray n).m_Array = List.replicate (BITS_TO_CHARS n) 0 := by
  show pushZeros [] (BITS_TO_CHARS n) = _
  rw [pushZeros_eq]
  simp

theorem BIT_IN_CHAR_eq (p : Nat) : BIT_IN_CHAR p = 2 ^ (7 - p % 8) := by
  show 1 <<< (8 - 1 - p % 8) = _
  rw [Nat.shiftLeft_eq, one_mul]

theorem BIT_IN_CHAR_pos (p : Nat) : 0 < BIT_IN_CHAR p := by
  rw [BIT_IN_CHAR_eq]; positivity

theorem two_pow_and_two_pow_ne {a b : Nat} (h : a ≠ b) : 2 ^ a &&& 2 ^ b = 0 := by
  apply Nat.eq_of_testBit_eq
  intro t
  rw [Nat.testBit_and, Nat.zero_testBit, Nat.testBit_two_pow, Nat.testBit_two_pow]
  rcases eq_or_ne a t with rfl | ha
  · simp [Ne.symm h]
  · simp [ha]

theorem getBit_eq (b : bit_array_c) (p : Nat) :
    getBit b p = (b.m_Array[BIT_CHAR p]?).map (fun c => c &&& BIT_IN_CHAR p != 0) := by
  rw [getBit, getByte]
  cases b.m_Array[BIT_CHAR p]? <;> rfl

theorem BIT_CHAR_lt_chars {i n : Nat} (h : i < n) : BIT_CHAR i < BITS_TO_CHARS n := by
  show i / 8 < (n - 1) / 8 + 1
  have : i / 8 ≤ (n - 1) / 8 := Nat.div_le_div_right (by omega)
  omega

theorem BITS_TO_CHARS_eq_ceil {n : Nat} (h : 1 ≤ n) : BITS_TO_CHARS n = (n + 7) / 8 := by
  show (n - 1) / 8 + 1 = (n + 7) / 8
  have h8 : (0:Nat) < 8 := by norm_num
  have := Nat.add_div_right (n - 1) h8
  have hn : n - 1 + 8 = n + 7 := by omega
  omega

/-! ### Spare bits, restated on the final char

Under Invariant A the spare bits of a vector are exactly the low
`pad m_NumBits` bits of the final char, which gives a divisibility
characterization that the preservation proofs use. -/

/-- Number of spare (unused) bit positions in the final char. -/
def pad (n : Nat) : Nat := (8 - n % 8) % 8

/-- Divisibility form of Invariant B: the final char is a multiple of
`2 ^ pad m_NumBits`. -/
def SpareLast (b : bit_array_c) : Prop :=
  2 ^ pad b.m_NumBits ∣ b.m_Array.getD (b.m_Array.length - 1) 0

theorem and_bit_eq_zero_iff (c j : Nat) : c &&& 2 ^ j = 0 ↔ c.testBit j = false := by
  rw [Nat.and_two_pow]
  cases h : c.testBit j <;> simp [h]

theorem two_pow_dvd_iff_testBit (k x : Nat) :
    2 ^ k ∣ x ↔ ∀ t < k, x.testBit t = false := by
  constructor
  · intro h t ht
    have hx : x % 2 ^ k = 0 := Nat.dvd_iff_mod_eq_zero.mp h
    have := Nat.testBit_mod_two_pow x k t
    rw [hx, Nat.zero_testBit] at this
    simpa [ht] using this.symm
  · intro h
    rw [Nat.dvd_iff_mod_eq_zero]
    apply Nat.eq_of_testBit_eq
    intro t
    rw [Nat.testBit_mod_two_pow, Nat.zero_testBit]
    by_cases ht : t < k
    · simp [ht, h t ht]
    · simp [ht]

theorem dvd_and_left {k x : Nat} (y : Nat) (h : 2 ^ k ∣ x) : 2 ^ k ∣ x &&& y := by
  rw [two_pow_dvd_iff_testBit] at h ⊢
  intro t ht
  rw [Nat.testBit_and, h t ht, Bool.false_and]

theorem dvd_and_right {k y : Nat} (x : Nat) (h : 2 ^ k ∣ y) : 2 ^ k ∣ x &&& y := by
  rw [two_pow_dvd_iff_testBit] at h ⊢
  intro t ht
  rw [Nat.testBit_and, h t ht, Bool.and_false]

theorem dvd_or {k x y : Nat} (hx : 2 ^ k ∣ x) (hy : 2 ^ k ∣ y) : 2 ^ k ∣ x ||| y := by
  rw [two_pow_dvd_iff_testBit] at hx hy ⊢
  intro t ht
  rw [Nat.testBit_or, hx t ht, hy t ht]
  rfl

theorem dvd_xor {k x y : Nat} (hx : 2 ^ k ∣ x) (hy : 2 ^ k ∣ y) : 2 ^ k ∣ x ^^^ y := by
  rw [two_pow_dvd_iff_testBit] at hx hy ⊢
  intro t ht
  rw [Nat.testBit_xor, hx t ht, hy t ht]
  rfl

theorem dvd_or_two_pow {k x j : Nat} (hx : 2 ^ k ∣ x) (hj : k ≤ j) : 2 ^ k ∣ x ||| 2 ^ j := by
  rw [two_pow_dvd_iff_testBit] at hx ⊢
  intro t ht
  rw [Nat.testBit_or, hx t ht, Nat.testBit_two_pow]
  simp
  omega

theorem dvd_mod_256 {k x : Nat} (hk : k ≤ 8) (h : 2 ^ k ∣ x) : 2 ^ k ∣ x % 256 := by
  have h256 : (2:Nat) ^ k ∣ 256 := by
    have : (256:Nat) = 2 ^ 8 := by norm_num
    rw [this]
    exact pow_dvd_pow 2 hk
  exact (Nat.dvd_mod_iff h256).mpr h

theorem pad_le (n : Nat) : pad n ≤ 7 := by
  unfold pad
  omega

/-- Equivalence of the positional phrasing of Invariant B with the
divisibility phrasing, on states satisfying Invariant A. -/
theorem spareZero_iff (b : bit_array_c) (hA : StorageOk b) :
    SpareZero b ↔ SpareLast b := by
  rcases b with ⟨n, arr⟩
  unfold StorageOk at hA
  simp only at hA
  unfold SpareZero SpareLast pad
  simp only
  set L := arr.length with hL
  rcases Nat.eq_zero_or_pos L with h0 | hpos
  · rw [h0]
    constructor
    · intro _
      have : arr = [] := List.length_eq_zero.mp h0
      simp [this]
    · intro _ p hp
      omega
  · have hn1 : 1 ≤ n := by omega
    have hnL : 8 * L - 7 ≤ n ∧ n ≤ 8 * L := by omega
    set c := arr.getD (L - 1) 0 with hc
    constructor
    · intro hS
      rw [two_pow_dvd_iff_testBit]
      intro t ht
      have hr : n % 8 ≠ 0 := by omega
      -- the spare position whose mask bit is t
      set p := 8 * (L - 1) + (7 - t) with hp
      have h1 : p < 8 * L := by omega
      have h2 : n ≤ p := by omega
      have h3 : 8 * L ≤ p + 8 := by omega
      have := hS p h1 h2 h3
      rw [BIT_IN_CHAR_eq] at this
      have hdiv : BIT_CHAR p = L - 1 := by
        show p / 8 = L - 1
        omega
      have hmod : p % 8 = 7 - t := by omega
      rw [hdiv, hmod] at this
      have ht7 : 7 - (7 - t) = t := by omega
      rw [ht7] at this
      exact (and_bit_eq_zero_iff c t).mp this
    · intro hS p h1 h2 h3
      have hdiv : BIT_CHAR p = L - 1 := by
        show p / 8 = L - 1
        omega
      rw [hdiv, BIT_IN_CHAR_eq, and_bit_eq_zero_iff]
      rw [two_pow_dvd_iff_testBit] at hS
      apply hS
      omega

/-! ### Access helpers and mask facts -/

theorem setByte_some {a : List Nat} {i : Nat} (v : Nat) (h : i < a.length) :
    setByte a i v = some (a.set i v) := by
  rw [setByte, if_pos h]

theorem of_setByte_eq_some {a a2 : List Nat} {i v : Nat} (h : setByte a i v = some a2) :
    i < a.length ∧ a2 = a.set i v := by
  rw [setByte] at h
  split at h
  · exact ⟨by assumption, (Option.some.injEq _ _ ▸ h).symm⟩
  · exact absurd h (by simp)

theorem of_getByte_eq_some {a : List Nat} {i c : Nat} (h : getByte a i = some c) :
    i < a.length ∧ c = a.getD i 0 := by
  rw [getByte] at h
  have hlt : i < a.length := by
    by_contra hge
    rw [List.getElem?_eq_none (by omega)] at h
    exact absurd h (by simp)
  refine ⟨hlt, ?_⟩
  rw [List.getD_eq_getElem?_getD, h]
  rfl

theorem getByte_some {a : List Nat} {i : Nat} (h : i < a.length) :
    getByte a i = some (a.getD i 0) := by
  rw [getByte, List.getElem?_eq_getElem h, List.getD_eq_getElem?_getD,
    List.getElem?_eq_getElem h]
  rfl

theorem getD_set_self {l : List Nat} {i : Nat} (v : Nat) (h : i < l.length) :
    (l.set i v).getD i 0 = v := by
  rw [List.getD_eq_getElem?_getD, List.getElem?_set_self h]
  rfl

theorem getD_set_ne {l : List Nat} {i j : Nat} (v : Nat) (h : i ≠ j) :
    (l.set i v).getD j 0 = l.getD j 0 := by
  rw [List.getD_eq_getElem?_getD, List.getElem?_set_ne h, ← List.getD_eq_getElem?_getD]

theorem getD_replicate {L i v : Nat} (h : i < L) : (List.replicate L v).getD i 0 = v := by
  rw [List.getD_eq_getElem?_getD, List.getElem?_replicate, if_pos h]
  rfl

theorem getD_map_lt {f : Nat → Nat} {l : List Nat} {i : Nat} (h : i < l.length) :
    (l.map f).getD i 0 = f (l.getD i 0) := by
  rw [List.getD_eq_getElem _ _ (by simpa using h), List.getElem_map, List.getD_eq_getElem _ _ h]

theorem pred32_eq {n : Nat} (h1 : 1 ≤ n) (h2 : n < U32) : pred32 n = n - 1 := by
  show (n + (4294967296 - 1)) % 4294967296 = n - 1
  have : n < 4294967296 := h2
  omega

theorem mask_dvd {n : Nat} (h : n % 8 ≠ 0) :
    2 ^ pad n ∣ (UCHAR_MAX <<< (CHAR_BIT - n % 8)) % 256 := by
  have hr1 : 1 ≤ n % 8 := by omega
  have hr8 : n % 8 < 8 := Nat.mod_lt n (by norm_num)
  show (2:Nat) ^ ((8 - n % 8) % 8) ∣ (255 <<< (8 - n % 8)) % 256
  set r := n % 8 with hr
  interval_cases r <;> decide

theorem one_eq (n : Nat) :
    (if n % 8 ≠ 0 then (1 <<< (CHAR_BIT - n % 8)) % 256 else 1) = 2 ^ pad n := by
  by_cases h : n % 8 = 0
  · rw [if_neg (by simpa using h)]
    unfold pad
    rw [h]
    norm_num
  · rw [if_pos h]
    have hr1 : 1 ≤ n % 8 := by omega
    have hr8 : n % 8 < 8 := Nat.mod_lt n (by norm_num)
    show (1 <<< (8 - n % 8)) % 256 = 2 ^ ((8 - n % 8) % 8)
    set r := n % 8 with hr
    interval_cases r <;> decide

theorem maxValue_dvd (n : Nat) :
    2 ^ pad n ∣ (if n % 8 ≠ 0 then (UCHAR_MAX <<< (CHAR_BIT - n % 8)) % 256 else UCHAR_MAX) := by
  by_cases h : n % 8 = 0
  · rw [if_neg (by simpa using h)]
    unfold pad
    rw [h]
    simp
  · rw [if_pos h]
    exact mask_dvd h

/-- Under Invariant A with a nonempty array, the final used char is the
last char. -/
theorem lastIdx_eq {b : bit_array_c} (hA : StorageOk b) (h32 : NumBits32 b)
    (hne : b.m_Array.length ≠ 0) :
    BIT_CHAR (pred32 b.m_NumBits) = b.m_Array.length - 1 ∧ 1 ≤ b.m_NumBits := by
  have hL := hA
  unfold StorageOk at hL
  have hn1 : 1 ≤ b.m_NumBits := by omega
  rw [pred32_eq hn1 h32]
  constructor
  · show (b.m_NumBits - 1) / 8 = b.m_Array.length - 1
    omega
  · exact hn1

/-! ### Preservation of Invariant B by each mutating operation -/

theorem SetAll_pres {b b' : bit_array_c} (hA : StorageOk b) (h32 : NumBits32 b)
    (h : SetAll b = some b') :
    b'.m_NumBits = b.m_NumBits ∧ StorageOk b' ∧ SpareLast b' := by
  simp only [SetAll] at h
  split at h
  · rename_i hbits
    simp only [bind, Option.bind_eq_some, Option.pure_def, Option.some.injEq] at h
    obtain ⟨arr2, hset, hb'⟩ := h
    obtain ⟨hlt, harr2⟩ := of_setByte_eq_some hset
    rw [List.length_replicate] at hlt
    subst hb'
    have hlen : arr2.length = b.m_Array.length := by
      rw [harr2, List.length_set, List.length_replicate]
    refine ⟨rfl, ?_, ?_⟩
    · unfold StorageOk at hA ⊢
      simpa [hlen] using hA
    · unfold SpareLast
      simp only [hlen]
      have hidx := (lastIdx_eq hA h32 (by omega)).1
      rw [harr2, hidx, getD_set_self _ (by rw [List.length_replicate]; omega)]
      exact mask_dvd hbits
  · rename_i hbits
    simp only [Option.pure_def, Option.some.injEq] at h
    subst h
    have h0 : b.m_NumBits % 8 = 0 := by simpa using hbits
    refine ⟨rfl, ?_, ?_⟩
    · unfold StorageOk at hA ⊢
      simpa using hA
    · unfold SpareLast pad
      simp only [h0]
      simp

theorem ClearAll_pres (b : bit_array_c) :
    (ClearAll b).m_NumBits = b.m_NumBits ∧
      ((ClearAll b).m_Array.length = b.m_Array.length) ∧ SpareLast (ClearAll b) := by
  refine ⟨rfl, by simp [ClearAll], ?_⟩
  unfold SpareLast ClearAll
  simp only [List.length_replicate]
  by_cases h : b.m_Array.length = 0
  · simp [h]
  · rw [getD_replicate (by omega)]
    simp

theorem SetBit_pres {b b' : bit_array_c} {i : Nat} (hA : StorageOk b)
    (hS : SpareLast b) (h : SetBit b i = some b') :
    b'.m_NumBits = b.m_NumBits ∧ StorageOk b' ∧ SpareLast b' := by
  simp only [SetBit] at h
  split at h
  · have : b' = b := by simpa using h.symm
    subst this
    exact ⟨rfl, hA, hS⟩
  · rename_i hrange
    simp only [bind, Option.bind_eq_some, Option.pure_def, Option.some.injEq] at h
    obtain ⟨c, hget, arr2, hset, hb'⟩ := h
    obtain ⟨hclt, hc⟩ := of_getByte_eq_some hget
    obtain ⟨hslt, harr2⟩ := of_setByte_eq_some hset
    subst hb'
    have hlen : arr2.length = b.m_Array.length := by rw [harr2, List.length_set]
    refine ⟨rfl, ?_, ?_⟩
    · unfold StorageOk at hA ⊢
      simpa [hlen] using hA
    · unfold SpareLast
      simp only [hlen]
      set L := b.m_Array.length with hL
      rcases eq_or_ne (BIT_CHAR i) (L - 1) with hidx | hidx
      · rw [harr2, hidx, getD_set_self _ (by omega), hc, hidx, BIT_IN_CHAR_eq]
        apply dvd_or_two_pow
        · unfold SpareLast at hS
          exact hS
        · -- the set bit lies among the used bits of the final char
          have hAL : L = (b.m_NumBits + 7) / 8 := hA
          have hdiv : i / 8 = L - 1 := hidx
          have hin : i < b.m_NumBits := by omega
          show pad b.m_NumBits ≤ 7 - i % 8
          unfold pad
          omega
      · rw [harr2, getD_set_ne _ hidx]
        exact hS

theorem ClearBit_pres {b b' : bit_array_c} {i : Nat} (hA : StorageOk b)
    (hS : SpareLast b) (h : ClearBit b i = some b') :
    b'.m_NumBits = b.m_NumBits ∧ StorageOk b' ∧ SpareLast b' := by
  simp only [ClearBit] at h
  split at h
  · have : b' = b := by simpa using h.symm
    subst this
    exact ⟨rfl, hA, hS⟩
  · simp only [bind, Option.bind_eq_some, Option.pure_def, Option.some.injEq] at h
    obtain ⟨c, hget, arr2, hset, hb'⟩ := h
    obtain ⟨hclt, hc⟩ := of_getByte_eq_some hget
    obtain ⟨hslt, harr2⟩ := of_setByte_eq_some hset
    subst hb'
    have hlen : arr2.length = b.m_Array.length := by rw [harr2, List.length_set]
    refine ⟨rfl, ?_, ?_⟩
    · unfold StorageOk at hA ⊢
      simpa [hlen] using hA
    · unfold SpareLast
      simp only [hlen]
      rcases eq_or_ne (BIT_CHAR i) (b.m_Array.length - 1) with hidx | hidx
      · rw [harr2, hidx, getD_set_self _ (by omega), hc, hidx]
        exact dvd_and_left _ hS
      · rw [harr2, getD_set_ne _ hidx]
        exact hS

theorem bitNot_pres {b b' : bit_array_c} (hA : StorageOk b) (h32 : NumBits32 b)
    (hS : SpareLast b) (h : bitNot b = some b') :
    b'.m_NumBits = b.m_NumBits ∧ StorageOk b' ∧ SpareLast b' := by
  simp only [bitNot] at h
  split at h
  · have : b' = b := by simpa using h.symm
    subst this
    exact ⟨rfl, hA, hS⟩
  · rename_i hne
    split at h
    · rename_i hbits
      simp only [bind, Option.bind_eq_some, Option.pure_def, Option.some.injEq] at h
      obtain ⟨c, hget, arr2, hset, hb'⟩ := h
      obtain ⟨hslt, harr2⟩ := of_setByte_eq_some hset
      subst hb'
      have hmaplen : (b.m_Array.map (fun c => UCHAR_MAX - c)).length = b.m_Array.length := by
        simp
      have hlen : arr2.length = b.m_Array.length := by
        rw [harr2, List.length_set, hmaplen]
      refine ⟨rfl, ?_, ?_⟩
      · unfold StorageOk at hA ⊢
        simpa [hlen] using hA
      · unfold SpareLast
        simp only [hlen]
        have hidx := (lastIdx_eq hA h32 hne).1
        rw [harr2, hidx, getD_set_self _ (by rw [hmaplen]; omega)]
        exact dvd_and_right _ (mask_dvd hbits)
    · rename_i hbits
      simp only [Option.pure_def, Option.some.injEq] at h
      subst h
      have h0 : b.m_NumBits % 8 = 0 := by simpa using hbits
      refine ⟨rfl, ?_, ?_⟩
      · unfold StorageOk at hA ⊢
        simpa using hA
      · unfold SpareLast pad
        simp only [h0]
        simp

theorem binopLoop_eq_zipWith (f : Nat → Nat → Nat) :
    ∀ (as bs cs : List Nat), binopLoop f as bs = some cs →
      cs = List.zipWith f as bs ∧ as.length ≤ bs.length := by
  intro as
  induction as with
  | nil =>
    intro bs cs h
    simp only [binopLoop, Option.some.injEq] at h
    subst h
    simp
  | cons a as ih =>
    intro bs cs h
    cases bs with
    | nil => exact absurd h (by simp [binopLoop])
    | cons s ss =>
      simp only [binopLoop, bind, Option.bind_eq_some, Option.pure_def,
        Option.some.injEq] at h
      obtain ⟨rest, hrest, hcs⟩ := h
      obtain ⟨h1, h2⟩ := ih ss rest hrest
      subst hcs
      rw [h1]
      exact ⟨rfl, by simpa using h2⟩

theorem getD_zipWith {f : Nat → Nat → Nat} {as bs : List Nat} {i : Nat}
    (h1 : i < as.length) (h2 : i < bs.length) :
    (List.zipWith f as bs).getD i 0 = f (as.getD i 0) (bs.getD i 0) := by
  rw [List.getD_eq_getElem?_getD, List.getD_eq_getElem?_getD, List.getD_eq_getElem?_getD]
  rw [List.getElem?_zipWith, List.getElem?_eq_getElem h1, List.getElem?_eq_getElem h2]
  rfl

theorem getD_of_length_zero {l : List Nat} (h : l.length = 0) (i : Nat) :
    l.getD i 0 = 0 := by
  rw [List.length_eq_zero.mp h]
  rfl

/-- Shared preservation argument for the three in-place bitwise operators. -/
theorem binAssign_pres {f : Nat → Nat → Nat} {b src b' : bit_array_c}
    (hfd : ∀ x y, 2 ^ pad b.m_NumBits ∣ x → 2 ^ pad b.m_NumBits ∣ y →
      2 ^ pad b.m_NumBits ∣ f x y)
    (hA : StorageOk b) (hS : SpareLast b) (hA2 : StorageOk src) (hS2 : SpareLast src)
    (h : (if b.m_NumBits ≠ src.m_NumBits then some b
          else do
            let arr ← binopLoop f b.m_Array src.m_Array
            pure { b with m_Array := arr }) = some b') :
    b'.m_NumBits = b.m_NumBits ∧ StorageOk b' ∧ SpareLast b' := by
  split at h
  · have : b' = b := by simpa using h.symm
    subst this
    exact ⟨rfl, hA, hS⟩
  · rename_i hnb
    have hnb' : b.m_NumBits = src.m_NumBits := by simpa using hnb
    simp only [bind, Option.bind_eq_some, Option.pure_def, Option.some.injEq] at h
    obtain ⟨arr, hloop, hb'⟩ := h
    subst hb'
    obtain ⟨harr, hle⟩ := binopLoop_eq_zipWith f _ _ _ hloop
    have hls : b.m_Array.length = src.m_Array.length := by
      unfold StorageOk at hA hA2
      rw [hA, hA2, hnb']
    have hlen : arr.length = b.m_Array.length := by
      rw [harr, List.length_zipWith]
      omega
    refine ⟨rfl, ?_, ?_⟩
    · unfold StorageOk at hA ⊢
      simpa [hlen] using hA
    · unfold SpareLast
      simp only [hlen]
      rcases Nat.eq_zero_or_pos b.m_Array.length with h0 | hpos
      · rw [getD_of_length_zero (by omega) _]
        simp
      · rw [harr, getD_zipWith (by omega) (by omega)]
        apply hfd
        · exact hS
        · unfold SpareLast at hS2
          rw [hls, hnb']
          exact hS2

theorem andAssign_pres {b src b' : bit_array_c}
    (hA : StorageOk b) (hS : SpareLast b) (hA2 : StorageOk src) (hS2 : SpareLast src)
    (h : andAssign b src = some b') :
    b'.m_NumBits = b.m_NumBits ∧ StorageOk b' ∧ SpareLast b' :=
  binAssign_pres (fun _ _ hx _ => dvd_and_left _ hx) hA hS hA2 hS2 h

theorem xorAssign_pres {b src b' : bit_array_c}
    (hA : StorageOk b) (hS : SpareLast b) (hA2 : StorageOk src) (hS2 : SpareLast src)
    (h : xorAssign b src = some b') :
    b'.m_NumBits = b.m_NumBits ∧ StorageOk b' ∧ SpareLast b' :=
  binAssign_pres (fun _ _ hx hy => dvd_xor hx hy) hA hS hA2 hS2 h

theorem orAssign_pres {b src b' : bit_array_c}
    (hA : StorageOk b) (hS : SpareLast b) (hA2 : StorageOk src) (hS2 : SpareLast src)
    (h : orAssign b src = some b') :
    b'.m_NumBits = b.m_NumBits ∧ StorageOk b' ∧ SpareLast b' :=
  binAssign_pres (fun _ _ hx hy => dvd_or hx hy) hA hS hA2 hS2 h

theorem assign_pres {b src : bit_array_c}
    (hA : StorageOk b) (hS : SpareLast b) (hA2 : StorageOk src) (hS2 : SpareLast src) :
    (assign b src).m_NumBits = b.m_NumBits ∧ StorageOk (assign b src) ∧
      SpareLast (assign b src) := by
  unfold assign
  split
  · exact ⟨rfl, hA, hS⟩
  · split
    · exact ⟨rfl, hA, hS⟩
    · rename_i hnb _
      have hnb' : b.m_NumBits = src.m_NumBits := by simpa using hnb
      refine ⟨rfl, ?_, ?_⟩
      · unfold StorageOk at hA2 ⊢
        simpa [hnb'] using hA2
      · unfold SpareLast at hS2 ⊢
        simp only
        rw [hnb']
        exact hS2

theorem incLoop_facts :
    ∀ (i : Nat) (arr : List Nat) (mv one : Nat) (arr2 : List Nat),
      incLoop arr mv one i = some arr2 →
      arr2.length = arr.length ∧ (∀ j, i < j → arr2.getD j 0 = arr.getD j 0) ∧
        (arr2.getD i 0 = (arr.getD i 0 + one) % 256 ∨ arr2.getD i 0 = 0) := by
  intro i
  induction i with
  | zero =>
    intro arr mv one arr2 h
    simp only [incLoop, bind, Option.bind_eq_some] at h
    obtain ⟨c, hget, hbr⟩ := h
    obtain ⟨hlt, hc⟩ := of_getByte_eq_some hget
    split at hbr <;>
      obtain ⟨hlt2, harr2⟩ := of_setByte_eq_some hbr
    · subst harr2
      exact ⟨List.length_set _ _ _, fun j hj => getD_set_ne _ (by omega),
        Or.inl (by rw [getD_set_self _ hlt, hc])⟩
    · subst harr2
      exact ⟨List.length_set _ _ _, fun j hj => getD_set_ne _ (by omega),
        Or.inr (by rw [getD_set_self _ hlt])⟩
  | succ i ih =>
    intro arr mv one arr2 h
    simp only [incLoop, bind, Option.bind_eq_some] at h
    obtain ⟨c, hget, hbr⟩ := h
    obtain ⟨hlt, hc⟩ := of_getByte_eq_some hget
    split at hbr
    · obtain ⟨hlt2, harr2⟩ := of_setByte_eq_some hbr
      subst harr2
      exact ⟨List.length_set _ _ _, fun j hj => getD_set_ne _ (by omega),
        Or.inl (by rw [getD_set_self _ hlt, hc])⟩
    · rw [Option.bind_eq_some] at hbr
      obtain ⟨arr1, hset, hrec⟩ := hbr
      obtain ⟨hlt2, harr1⟩ := of_setByte_eq_some hset
      obtain ⟨hlen, hup, _⟩ := ih arr1 UCHAR_MAX 1 arr2 hrec
      have hlen1 : arr1.length = arr.length := by rw [harr1, List.length_set]
      refine ⟨by omega, fun j hj => ?_, Or.inr ?_⟩
      · rw [hup j (by omega), harr1, getD_set_ne _ (by omega)]
      · rw [hup (i + 1) (by omega), harr1, getD_set_self _ hlt]

theorem decLoop_facts :
    ∀ (i : Nat) (arr : List Nat) (mv one : Nat) (arr2 : List Nat),
      decLoop arr mv one i = some arr2 →
      arr2.length = arr.length ∧ (∀ j, i < j → arr2.getD j 0 = arr.getD j 0) ∧
        (arr2.getD i 0 = arr.getD i 0 - one ∨ arr2.getD i 0 = mv) := by
  intro i
  induction i with
  | zero =>
    intro arr mv one arr2 h
    simp only [decLoop, bind, Option.bind_eq_some] at h
    obtain ⟨c, hget, hbr⟩ := h
    obtain ⟨hlt, hc⟩ := of_getByte_eq_some hget
    split at hbr <;>
      obtain ⟨hlt2, harr2⟩ := of_setByte_eq_some hbr
    · subst harr2
      exact ⟨List.length_set _ _ _, fun j hj => getD_set_ne _ (by omega),
        Or.inl (by rw [getD_set_self _ hlt, hc])⟩
    · subst harr2
      exact ⟨List.length_set _ _ _, fun j hj => getD_set_ne _ (by omega),
        Or.inr (by rw [getD_set_self _ hlt])⟩
  | succ i ih =>
    intro arr mv one arr2 h
    simp only [decLoop, bind, Option.bind_eq_some] at h
    obtain ⟨c, hget, hbr⟩ := h
    obtain ⟨hlt, hc⟩ := of_getByte_eq_some hget
    split at hbr
    · obtain ⟨hlt2, harr2⟩ := of_setByte_eq_some hbr
      subst harr2
      exact ⟨List.length_set _ _ _, fun j hj => getD_set_ne _ (by omega),
        Or.inl (by rw [getD_set_self _ hlt, hc])⟩
    · rw [Option.bind_eq_some] at hbr
      obtain ⟨arr1, hset, hrec⟩ := hbr
      obtain ⟨hlt2, harr1⟩ := of_setByte_eq_some hset
      obtain ⟨hlen, hup, _⟩ := ih arr1 UCHAR_MAX 1 arr2 hrec
      have hlen1 : arr1.length = arr.length := by rw [harr1, List.length_set]
      refine ⟨by omega, fun j hj => ?_, Or.inr ?_⟩
      · rw [hup j (by omega), harr1, getD_set_ne _ (by omega)]
      · rw [hup (i + 1) (by omega), harr1, getD_set_self _ hlt]

theorem oneExpr_dvd (n : Nat) :
    2 ^ pad n ∣ (if n % 8 ≠ 0 then (1 <<< (CHAR_BIT - n % 8)) % 256 else 1) := by
  rw [show (if n % 8 ≠ 0 then (1 <<< (CHAR_BIT - n % 8)) % 256 else 1)
      = (if n % 8 ≠ 0 then (1 <<< (CHAR_BIT - n % 8)) % 256 else 1) from rfl]
  rw [one_eq n]

theorem increment_pres {b b' : bit_array_c} (hA : StorageOk b) (h32 : NumBits32 b)
    (hS : SpareLast b) (h : increment b = some b') :
    b'.m_NumBits = b.m_NumBits ∧ StorageOk b' ∧ SpareLast b' := by
  simp only [increment] at h
  split at h
  · have : b' = b := by simpa using h.symm
    subst this
    exact ⟨rfl, hA, hS⟩
  · rename_i hne
    simp only [bind, Option.bind_eq_some, Option.pure_def, Option.some.injEq] at h
    obtain ⟨arr2, hloop, hb'⟩ := h
    subst hb'
    obtain ⟨hidx, hn1⟩ := lastIdx_eq hA h32 hne
    rw [hidx] at hloop
    obtain ⟨hlen, hup, hlast⟩ := incLoop_facts _ _ _ _ _ hloop
    refine ⟨rfl, ?_, ?_⟩
    · unfold StorageOk at hA ⊢
      simpa [hlen] using hA
    · unfold SpareLast
      simp only [hlen]
      rcases hlast with hl | hl
      · rw [hl]
        apply dvd_mod_256 (by have := pad_le b.m_NumBits; omega)
        apply dvd_add
        · exact hS
        · exact one_eq b.m_NumBits ▸ dvd_refl _
      · rw [hl]
        exact dvd_zero _

theorem decrement_pres {b b' : bit_array_c} (hA : StorageOk b) (h32 : NumBits32 b)
    (hS : SpareLast b) (h : decrement b = some b') :
    b'.m_NumBits = b.m_NumBits ∧ StorageOk b' ∧ SpareLast b' := by
  simp only [decrement] at h
  split at h
  · have : b' = b := by simpa using h.symm
    subst this
    exact ⟨rfl, hA, hS⟩
  · rename_i hne
    simp only [bind, Option.bind_eq_some, Option.pure_def, Option.some.injEq] at h
    obtain ⟨arr2, hloop, hb'⟩ := h
    subst hb'
    obtain ⟨hidx, hn1⟩ := lastIdx_eq hA h32 hne
    rw [hidx] at hloop
    obtain ⟨hlen, hup, hlast⟩ := decLoop_facts _ _ _ _ _ hloop
    refine ⟨rfl, ?_, ?_⟩
    · unfold StorageOk at hA ⊢
      simpa [hlen] using hA
    · unfold SpareLast
      simp only [hlen]
      rcases hlast with hl | hl
      · rw [hl]
        exact Nat.dvd_sub' hS (one_eq b.m_NumBits ▸ dvd_refl _)
      · rw [hl]
        exact maxValue_dvd b.m_NumBits

theorem shlCopy_length (chars : Nat) :
    ∀ fuel i a, (shlCopy chars fuel i a).length = a.length := by
  intro fuel
  induction fuel with
  | zero => intro i a; rfl
  | succ fuel ih =>
    intro i a
    rw [shlCopy]
    split
    · rw [ih, List.length_set]
    · rfl

theorem shlZeroLoop_length (i : Nat) :
    ∀ c a a2, shlZeroLoop i a c = some a2 → a2.length = a.length := by
  intro c
  induction c with
  | zero =>
    intro a a2 h
    simp only [shlZeroLoop, Option.some.injEq] at h
    rw [h]
  | succ c ih =>
    intro a a2 h
    simp only [shlZeroLoop, bind, Option.bind_eq_some] at h
    obtain ⟨a1, hset, hrec⟩ := h
    obtain ⟨hlt, ha1⟩ := of_setByte_eq_some hset
    rw [ih a1 a2 hrec, ha1, List.length_set]

theorem shlZeroLoop_last (i : Nat) (hi1 : 1 ≤ i) (hi2 : i < U32) :
    ∀ c, 1 ≤ c → c < U32 → ∀ a a2, shlZeroLoop i a c = some a2 →
      a2.getD (i - 1) 0 = 0 := by
  intro c
  induction c with
  | zero => omega
  | succ c ih =>
    intro _ hc2 a a2 h
    simp only [shlZeroLoop, bind, Option.bind_eq_some] at h
    obtain ⟨a1, hset, hrec⟩ := h
    obtain ⟨hlt, ha1⟩ := of_setByte_eq_some hset
    rcases Nat.eq_zero_or_pos c with rfl | hc1
    · -- final iteration: the write lands on index i - 1
      have hidx : (i + (U32 - (0 + 1) % U32)) % U32 = i - 1 := by
        show (i + (4294967296 - (0 + 1) % 4294967296)) % 4294967296 = i - 1
        have : i < 4294967296 := hi2
        omega
      simp only [shlZeroLoop, Option.some.injEq] at hrec
      subst hrec
      rw [hidx] at hlt
      rw [ha1, hidx]
      exact getD_set_self _ (by omega)
    · exact ih hc1 (by omega) a1 a2 hrec

theorem shlInner_facts (limit : Nat) :
    ∀ fuel j a a2, shlInner limit fuel j a = some a2 →
      a2.length = a.length ∧ ∀ t, limit ≤ t → a2.getD t 0 = a.getD t 0 := by
  intro fuel
  induction fuel with
  | zero =>
    intro j a a2 h
    simp only [shlInner, Option.some.injEq] at h
    rw [h]
    exact ⟨rfl, fun _ _ => rfl⟩
  | succ fuel ih =>
    intro j a a2 h
    rw [shlInner] at h
    split at h
    · rename_i hj
      simp only [bind, Option.bind_eq_some] at h
      obtain ⟨c, hget, a1, hset1, d, hgetd, hrest⟩ := h
      obtain ⟨hlt1, ha1⟩ := of_setByte_eq_some hset1
      split at hrest
      · simp only [Option.bind_eq_some] at hrest
        obtain ⟨c1, hgetc1, a1', hsetc1, hrec⟩ := hrest
        obtain ⟨hlt3, ha1'⟩ := of_setByte_eq_some hsetc1
        obtain ⟨hlen2, hup2⟩ := ih (j + 1) a1' a2 hrec
        refine ⟨?_, fun t ht => ?_⟩
        · rw [hlen2, ha1', List.length_set, ha1, List.length_set]
        · rw [hup2 t ht, ha1', getD_set_ne _ (by omega), ha1, getD_set_ne _ (by omega)]
      · simp only [Option.bind_eq_some] at hrest
        obtain ⟨a1', ha1', hrec⟩ := hrest
        obtain rfl : a1 = a1' := by simpa using ha1'
        obtain ⟨hlen2, hup2⟩ := ih (j + 1) a1 a2 hrec
        refine ⟨?_, fun t ht => ?_⟩
        · rw [hlen2, ha1, List.length_set]
        · rw [hup2 t ht, ha1, getD_set_ne _ (by omega)]
    · have : a2 = a := by simpa using h.symm
      subst this
      exact ⟨rfl, fun _ _ => rfl⟩

theorem shlBitPhase_facts (last k : Nat) (hk : k ≤ 8) :
    ∀ s a a2, shlBitPhase last s a = some a2 →
      a2.length = a.length ∧ (2 ^ k ∣ a.getD last 0 → 2 ^ k ∣ a2.getD last 0) := by
  intro s
  induction s with
  | zero =>
    intro a a2 h
    simp only [shlBitPhase, Option.some.injEq] at h
    rw [h]
    exact ⟨rfl, fun hd => hd⟩
  | succ s ih =>
    intro a a2 h
    simp only [shlBitPhase, bind, Option.bind_eq_some] at h
    obtain ⟨a1, hinner, c, hget, a2', hset, hrec⟩ := h
    obtain ⟨hlen1, hup1⟩ := shlInner_facts last last 0 a a1 hinner
    obtain ⟨hltc, hc⟩ := of_getByte_eq_some hget
    obtain ⟨hlt2, ha2'⟩ := of_setByte_eq_some hset
    obtain ⟨hlen3, hdvd3⟩ := ih a2' a2 hrec
    constructor
    · rw [hlen3, ha2', List.length_set, hlen1]
    · intro hd
      apply hdvd3
      rw [ha2', getD_set_self _ hlt2]
      apply dvd_mod_256 hk
      rw [Nat.shiftLeft_eq, pow_one]
      apply Dvd.dvd.mul_right
      rw [hc, hup1 last (le_refl last)]
      exact hd

/-- Shared final phase of the left-shift preservation argument. -/
theorem shl_tail {b b' : bit_array_c} {a1 a2 : List Nat} {sh : Nat}
    (hA : StorageOk b) (h32 : NumBits32 b) (hn1 : 1 ≤ b.m_NumBits)
    (hlen1 : a1.length = b.m_Array.length)
    (hdvd1 : 2 ^ pad b.m_NumBits ∣ a1.getD (b.m_Array.length - 1) 0)
    (ha2 : shlBitPhase (BIT_CHAR (pred32 b.m_NumBits)) sh a1 = some a2)
    (hb' : bit_array_c.mk b.m_NumBits a2 = b') :
    b'.m_NumBits = b.m_NumBits ∧ StorageOk b' ∧ SpareLast b' := by
  subst hb'
  have hL1 : 1 ≤ b.m_Array.length := by
    unfold StorageOk at hA
    omega
  obtain ⟨hidx, _⟩ := lastIdx_eq hA h32 (by omega)
  rw [hidx] at ha2
  obtain ⟨hlen2, hdvd2⟩ :=
    shlBitPhase_facts (b.m_Array.length - 1) (pad b.m_NumBits)
      (by have := pad_le b.m_NumBits; omega) _ a1 a2 ha2
  refine ⟨rfl, ?_, ?_⟩
  · unfold StorageOk at hA ⊢
    simp only [hlen2, hlen1]
    exact hA
  · unfold SpareLast
    simp only [hlen2, hlen1]
    exact hdvd2 hdvd1

theorem shlAssign_pres {b b' : bit_array_c} {k : Nat} (hA : StorageOk b)
    (h32 : NumBits32 b) (hS : SpareLast b) (hk : k < U32)
    (h : shlAssign b k = some b') :
    b'.m_NumBits = b.m_NumBits ∧ StorageOk b' ∧ SpareLast b' := by
  simp only [shlAssign] at h
  split at h
  · have : b' = ClearAll b := by simpa using h.symm
    subst this
    obtain ⟨h1, h2, h3⟩ := ClearAll_pres b
    refine ⟨h1, ?_, h3⟩
    unfold StorageOk at hA ⊢
    simpa [h2, h1] using hA
  · rename_i hguard
    have hn1 : 1 ≤ b.m_NumBits := by omega
    have hL1 : 1 ≤ b.m_Array.length := by
      unfold StorageOk at hA
      omega
    have hLU : b.m_Array.length < U32 := by
      unfold StorageOk at hA
      unfold NumBits32 at h32
      unfold U32 at h32 ⊢
      omega
    split at h
    · rename_i hchars
      simp only [bind, Option.bind_eq_some, Option.pure_def, Option.some.injEq] at h
      obtain ⟨a1, ha1, a2, ha2, hb'⟩ := h
      have hclen := shlCopy_length (k / CHAR_BIT) b.m_Array.length 0 b.m_Array
      rw [hclen] at ha1
      have hcharsU : k / CHAR_BIT < U32 := by
        have : k / CHAR_BIT ≤ k := Nat.div_le_self _ _
        omega
      have hlen1 : a1.length = b.m_Array.length := by
        rw [shlZeroLoop_length _ _ _ _ ha1, hclen]
      have hdvd1 : 2 ^ pad b.m_NumBits ∣ a1.getD (b.m_Array.length - 1) 0 := by
        rw [shlZeroLoop_last b.m_Array.length hL1 hLU (k / CHAR_BIT) hchars hcharsU
          _ _ ha1]
        exact dvd_zero _
      exact shl_tail hA h32 hn1 hlen1 hdvd1 ha2 hb'
    · simp only [bind, Option.bind_eq_some, Option.pure_def, Option.some.injEq] at h
      obtain ⟨a1, ha1, a2, ha2, hb'⟩ := h
      obtain rfl : b.m_Array = a1 := by simpa using ha1
      exact shl_tail hA h32 hn1 rfl hS ha2 hb'

theorem shrCopy_length (chars : Nat) :
    ∀ fuel i a a2, shrCopy chars fuel i a = some a2 → a2.length = a.length := by
  intro fuel
  induction fuel with
  | zero =>
    intro i a a2 h
    simp only [shrCopy, Option.some.injEq] at h
    rw [h]
  | succ fuel ih =>
    intro i a a2 h
    rw [shrCopy] at h
    split at h
    · simp only [bind, Option.bind_eq_some] at h
      obtain ⟨c, hget, a1, hset, hrec⟩ := h
      obtain ⟨hlt, ha1⟩ := of_setByte_eq_some hset
      rw [ih _ a1 a2 hrec, ha1, List.length_set]
    · have : a2 = a := by simpa using h.symm
      rw [this]

theorem shrZeroLoop_length :
    ∀ c a a2, shrZeroLoop a c = some a2 → a2.length = a.length := by
  intro c
  induction c with
  | zero =>
    intro a a2 h
    simp only [shrZeroLoop, Option.some.injEq] at h
    rw [h]
  | succ c ih =>
    intro a a2 h
    simp only [shrZeroLoop, bind, Option.bind_eq_some] at h
    obtain ⟨a1, hset, hrec⟩ := h
    obtain ⟨hlt, ha1⟩ := of_setByte_eq_some hset
    rw [ih a1 a2 hrec, ha1, List.length_set]

theorem shrInner_length :
    ∀ fuel j a a2, shrInner fuel j a = some a2 → a2.length = a.length := by
  intro fuel
  induction fuel with
  | zero =>
    intro j a a2 h
    simp only [shrInner, Option.some.injEq] at h
    rw [h]
  | succ fuel ih =>
    intro j a a2 h
    rw [shrInner] at h
    split at h
    · simp only [bind, Option.bind_eq_some] at h
      obtain ⟨c, hget, a1, hset1, d, hgetd, hrest⟩ := h
      obtain ⟨hlt1, ha1⟩ := of_setByte_eq_some hset1
      split at hrest
      · simp only [Option.bind_eq_some] at hrest
        obtain ⟨c1, hgetc1, a1', hsetc1, hrec⟩ := hrest
        obtain ⟨hlt3, ha1'⟩ := of_setByte_eq_some hsetc1
        rw [ih _ a1' a2 hrec, ha1', List.length_set, ha1, List.length_set]
      · simp only [Option.bind_eq_some] at hrest
        obtain ⟨a1', ha1', hrec⟩ := hrest
        obtain rfl : a1 = a1' := by simpa using ha1'
        rw [ih _ a1 a2 hrec, ha1, List.length_set]
    · have : a2 = a := by simpa using h.symm
      rw [this]

theorem shrBitPhase_length (last : Nat) :
    ∀ s a a2, shrBitPhase last s a = some a2 → a2.length = a.length := by
  intro s
  induction s with
  | zero =>
    intro a a2 h
    simp only [shrBitPhase, Option.some.injEq] at h
    rw [h]
  | succ s ih =>
    intro a a2 h
    simp only [shrBitPhase, bind, Option.bind_eq_some] at h
    obtain ⟨a1, hinner, c, hget, a2', hset, hrec⟩ := h
    obtain ⟨hlt2, ha2'⟩ := of_setByte_eq_some hset
    rw [ih a2' a2 hrec, ha2', List.length_set, shrInner_length _ _ _ _ hinner]

/-- Shared final phase (bit shifts and spare-bit re-mask) of the
right-shift preservation argument, starting from the array produced by the
byte-move phase. -/
theorem shr_tail {b b' : bit_array_c} {a1 : List Nat} {sh : Nat}
    (hA : StorageOk b) (h32 : NumBits32 b) (hn1 : 1 ≤ b.m_NumBits)
    (hlen1 : a1.length = b.m_Array.length)
    (h : (Option.bind (shrBitPhase (BIT_CHAR (pred32 b.m_NumBits)) sh a1) fun a2 =>
        if b.m_NumBits % CHAR_BIT ≠ 0 then
          Option.bind (getByte a2 (BIT_CHAR (pred32 b.m_NumBits))) fun c =>
            Option.bind (setByte a2 (BIT_CHAR (pred32 b.m_NumBits))
                (c &&& (UCHAR_MAX <<< (CHAR_BIT - b.m_NumBits % CHAR_BIT)) % 256)) fun a3 =>
              some (bit_array_c.mk b.m_NumBits a3)
        else some (bit_array_c.mk b.m_NumBits a2)) = some b') :
    b'.m_NumBits = b.m_NumBits ∧ StorageOk b' ∧ SpareLast b' := by
  have hL1 : 1 ≤ b.m_Array.length := by
    unfold StorageOk at hA
    omega
  rw [Option.bind_eq_some] at h
  obtain ⟨a2, ha2, h⟩ := h
  have hlen2 : a2.length = b.m_Array.length := by
    rw [shrBitPhase_length _ _ _ _ ha2, hlen1]
  obtain ⟨hidx, _⟩ := lastIdx_eq hA h32 (by omega)
  split at h
  · rename_i hbits
    simp only [Option.bind_eq_some, Option.some.injEq] at h
    obtain ⟨c, hget, a3, hset, hb'⟩ := h
    subst hb'
    obtain ⟨hlt3, ha3⟩ := of_setByte_eq_some hset
    have hlen3 : a3.length = b.m_Array.length := by
      rw [ha3, List.length_set, hlen2]
    refine ⟨rfl, ?_, ?_⟩
    · unfold StorageOk at hA ⊢
      simpa [hlen3] using hA
    · unfold SpareLast
      simp only [hlen3]
      rw [ha3, hidx, getD_set_self _ (by omega)]
      exact dvd_and_right _ (mask_dvd hbits)
  · rename_i hbits
    obtain rfl : bit_array_c.mk b.m_NumBits a2 = b' := by simpa using h
    have h0 : b.m_NumBits % 8 = 0 := by
      have h1 : ¬ b.m_NumBits % CHAR_BIT ≠ 0 := hbits
      simpa using h1
    refine ⟨rfl, ?_, ?_⟩
    · unfold StorageOk at hA ⊢
      simpa [hlen2] using hA
    · unfold SpareLast pad
      simp only [h0]
      simp

theorem shrAssign_pres {b b' : bit_array_c} {k : Nat} (hA : StorageOk b)
    (h32 : NumBits32 b) (h : shrAssign b k = some b') :
    b'.m_NumBits = b.m_NumBits ∧ StorageOk b' ∧ SpareLast b' := by
  simp only [shrAssign] at h
  split at h
  · have : b' = ClearAll b := by simpa using h.symm
    subst this
    obtain ⟨h1, h2, h3⟩ := ClearAll_pres b
    refine ⟨h1, ?_, h3⟩
    unfold StorageOk at hA ⊢
    simpa [h2, h1] using hA
  · rename_i hguard
    have hn1 : 1 ≤ b.m_NumBits := by omega
    split at h
    · rename_i hchars
      simp only [bind, Option.bind_eq_some, Option.pure_def, Option.some.injEq] at h
      obtain ⟨ac, hac, a1, hzl, h⟩ := h
      have hlen1 : a1.length = b.m_Array.length := by
        rw [shrZeroLoop_length _ _ _ hzl, shrCopy_length _ _ _ _ _ hac]
      exact shr_tail hA h32 hn1 hlen1 (by rw [Option.bind_eq_some]; exact h)
    · simp only [bind, Option.bind_eq_some, Option.pure_def, Option.some.injEq] at h
      obtain ⟨a1, ha1, h⟩ := h
      obtain rfl : b.m_Array = a1 := by simpa using ha1
      exact shr_tail hA h32 hn1 rfl (by rw [Option.bind_eq_some]; exact h)

/-! ### Claim C1.

The public contract says a shift by `k >= length` leaves the all-zero
vector, and the code comment at the guard agrees, but the guard compares
the residue `k % CHAR_BIT` with the length.  For `k = 16` on a length-8
vector the guard is missed and the zero-fill loops index the storage out
of bounds: `operator<<=` writes index `2 ^ 32 - 1` (unsigned wraparound of
`size - chars`) and `operator>>=` writes index 1 of a one-char array. -/

/-- Claim C1 (code bug): on the all-zero length-8 vector produced by the
length constructor, shifting by 16 makes both shift operators write out of
bounds (modelled as `none`) instead of leaving the all-zero vector. -/
theorem c1_shift_guard_out_of_bounds :
    shlAssign (mkBitArray 8) 16 = none ∧ shrAssign (mkBitArray 8) 16 = none := by
  constructor <;> rfl

/-! ### Claim C2 -/

/-- Claim C2, counterexample: the length constructor applied to 0 yields
one storage char, not `ceil (0 / 8) = 0` chars, because BITS_TO_CHARS
computes `((0 - 1) / 8) + 1 = 1` with truncating int division. -/
theorem c2_zero_length_counterexample :
    (mkBitArray 0).m_Array.length = 1 ∧ (mkBitArray 0).m_Array.length ≠ (0 + 7) / 8 := by
  constructor <;> decide

/-- Claim C2, amended: the length constructor stores exactly
`BITS_TO_CHARS n` zero chars, and for every `n >= 1` that count equals
`ceil (n / 8)`, so Invariant A holds after construction for `n >= 1`; for
`n = 0` the constructor yields one zero char rather than zero chars. -/
theorem c2_ctor_storage (n : Nat) :
    (mkBitArray n).m_NumBits = n ∧
    (mkBitArray n).m_Array = List.replicate (BITS_TO_CHARS n) 0 ∧
    (1 ≤ n → (mkBitArray n).m_Array.length = (n + 7) / 8) := by
  refine ⟨rfl, mkBitArray_array n, fun h => ?_⟩
  rw [mkBitArray_array, List.length_replicate, BITS_TO_CHARS_eq_ceil h]

/-- Claim C2 witness: the amended statement evaluated at `n = 9`. -/
theorem c2_ctor_storage_witness :
    (mkBitArray 9).m_NumBits = 9 ∧
    (mkBitArray 9).m_Array = List.replicate (BITS_TO_CHARS 9) 0 ∧
    (mkBitArray 9).m_Array.length = (9 + 7) / 8 :=
  ⟨(c2_ctor_storage 9).1, (c2_ctor_storage 9).2.1, (c2_ctor_storage 9).2.2 (by decide)⟩

/-! ### Claim C3 -/

/-- Claim C3, counterexample: the zero-length vector produced by the
length constructor (one storage char, every bit position spare) satisfies
the spare-bit predicate, but SetAll turns its char into 255, leaving every
spare bit set. -/
theorem c3_spare_counterexample :
    SpareZero (mkBitArray 0) ∧
      SetAll (mkBitArray 0) = some (bit_array_c.mk 0 [255]) ∧
      ¬ SpareZero (bit_array_c.mk 0 [255]) := by
  refine ⟨by decide, by rfl, by decide⟩

/-- Claim C3, amended: the spare-bit predicate is preserved by every
mutating operation provided each operand additionally satisfies Invariant A
in its exact form `storage.len = ceil (length / 8)` (so a zero-length
vector has zero storage chars, unlike the state the length constructor
builds); the two remaining hypotheses, chars below 256 and a length below
`2 ^ 32`, restate the C++ types unsigned char and unsigned int. -/
theorem c3_invariantB_preserved (a b : bit_array_c)
    (hAa : StorageOk a) (hSa : SpareZero a) (h32a : NumBits32 a)
    (hAb : StorageOk b) (hSb : SpareZero b) (h32b : NumBits32 b) :
    (∀ a', SetAll a = some a' → SpareZero a') ∧
    SpareZero (ClearAll a) ∧
    (∀ i a', SetBit a i = some a' → SpareZero a') ∧
    (∀ i a', ClearBit a i = some a' → SpareZero a') ∧
    (∀ a', bitNot a = some a' → SpareZero a') ∧
    (∀ a', andAssign a b = some a' → SpareZero a') ∧
    (∀ a', xorAssign a b = some a' → SpareZero a') ∧
    (∀ a', orAssign a b = some a' → SpareZero a') ∧
    (∀ a', increment a = some a' → SpareZero a') ∧
    (∀ a', decrement a = some a' → SpareZero a') ∧
    (∀ k a', k < U32 → shlAssign a k = some a' → SpareZero a') ∧
    (∀ k a', shrAssign a k = some a' → SpareZero a') ∧
    SpareZero (assign a b) := by
  have hLa : SpareLast a := (spareZero_iff a hAa).mp hSa
  have hLb : SpareLast b := (spareZero_iff b hAb).mp hSb
  refine ⟨?_, ?_, ?_, ?_, ?_, ?_, ?_, ?_, ?_, ?_, ?_, ?_, ?_⟩
  · intro a' h
    obtain ⟨_, h2, h3⟩ := SetAll_pres hAa h32a h
    exact (spareZero_iff a' h2).mpr h3
  · obtain ⟨h1, h2, h3⟩ := ClearAll_pres a
    refine (spareZero_iff _ ?_).mpr h3
    unfold StorageOk at hAa ⊢
    rw [h1, h2]
    exact hAa
  · intro i a' h
    obtain ⟨_, h2, h3⟩ := SetBit_pres hAa hLa h
    exact (spareZero_iff a' h2).mpr h3
  · intro i a' h
    obtain ⟨_, h2, h3⟩ := ClearBit_pres hAa hLa h
    exact (spareZero_iff a' h2).mpr h3
  · intro a' h
    obtain ⟨_, h2, h3⟩ := bitNot_pres hAa h32a hLa h
    exact (spareZero_iff a' h2).mpr h3
  · intro a' h
    obtain ⟨_, h2, h3⟩ := andAssign_pres hAa hLa hAb hLb h
    exact (spareZero_iff a' h2).mpr h3
  · intro a' h
    obtain ⟨_, h2, h3⟩ := xorAssign_pres hAa hLa hAb hLb h
    exact (spareZero_iff a' h2).mpr h3
  · intro a' h
    obtain ⟨_, h2, h3⟩ := orAssign_pres hAa hLa hAb hLb h
    exact (spareZero_iff a' h2).mpr h3
  · intro a' h
    obtain ⟨_, h2, h3⟩ := increment_pres hAa h32a hLa h
    exact (spareZero_iff a' h2).mpr h3
  · intro a' h
    obtain ⟨_, h2, h3⟩ := decrement_pres hAa h32a hLa h
    exact (spareZero_iff a' h2).mpr h3
  · intro k a' hk h
    obtain ⟨_, h2, h3⟩ := shlAssign_pres hAa h32a hLa hk h
    exact (spareZero_iff a' h2).mpr h3
  · intro k a' h
    obtain ⟨_, h2, h3⟩ := shrAssign_pres hAa h32a h
    exact (spareZero_iff a' h2).mpr h3
  · obtain ⟨_, h2, h3⟩ := assign_pres hAa hLa hAb hLb
    exact (spareZero_iff _ h2).mpr h3

/-- Claim C3 witness: the amended statement applied to two concrete
length-12 vectors, projected on the SetAll component. -/
theorem c3_invariantB_preserved_witness :
    (StorageOk (bit_array_c.mk 12 [171, 192]) ∧
      SpareZero (bit_array_c.mk 12 [171, 192]) ∧
      NumBits32 (bit_array_c.mk 12 [171, 192]) ∧
      StorageOk (bit_array_c.mk 12 [1, 16]) ∧
      SpareZero (bit_array_c.mk 12 [1, 16]) ∧
      NumBits32 (bit_array_c.mk 12 [1, 16])) ∧
    SpareZero (bit_array_c.mk 12 [255, 240]) :=
  ⟨⟨by decide, by decide, by decide, by decide, by decide, by decide⟩,
    (c3_invariantB_preserved (bit_array_c.mk 12 [171, 192]) (bit_array_c.mk 12 [1, 16])
      (by decide) (by decide) (by decide) (by decide) (by decide) (by decide)).1
      (bit_array_c.mk 12 [255, 240]) (by rfl)⟩

/-! ### Claim C10 -/

theorem incLoop_isSome :
    ∀ (i : Nat) (arr : List Nat) (mv one : Nat), i < arr.length →
      (incLoop arr mv one i).isSome := by
  intro i
  induction i with
  | zero =>
    intro arr mv one h
    rw [incLoop, getByte_some h]
    show (if arr.getD 0 0 ≠ mv then setByte arr 0 ((arr.getD 0 0 + one) % 256)
      else setByte arr 0 0).isSome
    split <;> rw [setByte_some _ h] <;> rfl
  | succ i ih =>
    intro arr mv one h
    rw [incLoop, getByte_some h]
    show (if arr.getD (i + 1) 0 ≠ mv then
        setByte arr (i + 1) ((arr.getD (i + 1) 0 + one) % 256)
      else do
        let arr2 ← setByte arr (i + 1) 0
        incLoop arr2 UCHAR_MAX 1 i).isSome
    split
    · rw [setByte_some _ h]
      rfl
    · rw [setByte_some _ h]
      show (incLoop (arr.set (i + 1) 0) UCHAR_MAX 1 i).isSome
      exact ih _ _ _ (by rw [List.length_set]; omega)

theorem decLoop_isSome :
    ∀ (i : Nat) (arr : List Nat) (mv one : Nat), i < arr.length →
      (decLoop arr mv one i).isSome := by
  intro i
  induction i with
  | zero =>
    intro arr mv one h
    rw [decLoop, getByte_some h]
    show (if one ≤ arr.getD 0 0 then setByte arr 0 (arr.getD 0 0 - one)
      else setByte arr 0 mv).isSome
    split <;> rw [setByte_some _ h] <;> rfl
  | succ i ih =>
    intro arr mv one h
    rw [decLoop, getByte_some h]
    show (if one ≤ arr.getD (i + 1) 0 then
        setByte arr (i + 1) (arr.getD (i + 1) 0 - one)
      else do
        let arr2 ← setByte arr (i + 1) mv
        decLoop arr2 UCHAR_MAX 1 i).isSome
    split
    · rw [setByte_some _ h]
      rfl
    · rw [setByte_some _ h]
      show (decLoop (arr.set (i + 1) mv) UCHAR_MAX 1 i).isSome
      exact ih _ _ _ (by rw [List.length_set]; omega)

/-- Claim C10: on a vector of length at least 1 whose storage size is
exactly `ceil (length / 8)` (with the unsigned int length below `2 ^ 32`),
every storage access of increment and decrement is in bounds: in this
Option-returning embedding neither operation can return `none`. -/
theorem c10_increment_decrement_in_bounds (b : bit_array_c)
    (hn : 1 ≤ b.m_NumBits) (hA : b.m_Array.length = (b.m_NumBits + 7) / 8)
    (h32 : b.m_NumBits < U32) :
    (increment b).isSome ∧ (decrement b).isSome := by
  have hA' : StorageOk b := hA
  have h32' : NumBits32 b := h32
  have hL1 : 1 ≤ b.m_Array.length := by omega
  have hne : ¬ (b.m_Array.length = 0) := by omega
  obtain ⟨hidx, _⟩ := lastIdx_eq hA' h32' hne
  constructor
  · simp only [increment]
    rw [if_neg hne, hidx]
    have h1 := incLoop_isSome (b.m_Array.length - 1) b.m_Array
      (if b.m_NumBits % CHAR_BIT ≠ 0 then
        (UCHAR_MAX <<< (CHAR_BIT - b.m_NumBits % CHAR_BIT)) % 256 else UCHAR_MAX)
      (if b.m_NumBits % CHAR_BIT ≠ 0 then
        (1 <<< (CHAR_BIT - b.m_NumBits % CHAR_BIT)) % 256 else 1)
      (by omega)
    obtain ⟨arr, harr⟩ := Option.isSome_iff_exists.mp h1
    rw [harr]
    rfl
  · simp only [decrement]
    rw [if_neg hne, hidx]
    have h1 := decLoop_isSome (b.m_Array.length - 1) b.m_Array
      (if b.m_NumBits % CHAR_BIT ≠ 0 then
        (UCHAR_MAX <<< (CHAR_BIT - b.m_NumBits % CHAR_BIT)) % 256 else UCHAR_MAX)
      (if b.m_NumBits % CHAR_BIT ≠ 0 then
        (1 <<< (CHAR_BIT - b.m_NumBits % CHAR_BIT)) % 256 else 1)
      (by omega)
    obtain ⟨arr, harr⟩ := Option.isSome_iff_exists.mp h1
    rw [harr]
    rfl

/-- Claim C10 witness: a length-16 vector with two storage chars. -/
theorem c10_increment_decrement_in_bounds_witness :
    (increment (bit_array_c.mk 16 [0, 255])).isSome ∧
      (decrement (bit_array_c.mk 16 [0, 255])).isSome :=
  c10_increment_decrement_in_bounds _ (by decide) (by decide) (by decide)

/-! ### Claim C4: the numeric value of a vector

The value (bit 0 most significant) is bridged to the big-endian base-256
value of the char list; increment and decrement are then carry and borrow
propagation on that value. -/

theorem toValAux_succ (b : bit_array_c) (p : Nat) :
    toValAux b (p + 1) = 2 * toValAux b p + (if bitAt b p then 1 else 0) := rfl

theorem bitAt_testBit (b : bit_array_c) (p : Nat) :
    bitAt b p = (b.m_Array.getD (BIT_CHAR p) 0).testBit (7 - p % 8) := by
  unfold bitAt
  rw [BIT_IN_CHAR_eq, Nat.and_two_pow]
  cases h : (b.m_Array.getD (BIT_CHAR p) 0).testBit (7 - p % 8) <;>
    simp [h, pow_ne_zero]

theorem bitAt_byte (b : bit_array_c) (i j : Nat) (hj : j < 8) :
    bitAt b (8 * i + j) = (b.m_Array.getD i 0).testBit (7 - j) := by
  rw [bitAt_testBit]
  rw [show BIT_CHAR (8 * i + j) = i from by show (8 * i + j) / 8 = i; omega]
  rw [show (8 * i + j) % 8 = j from by omega]

theorem bits_sum : ∀ c < 256,
    128 * (if c.testBit 7 then 1 else 0) + 64 * (if c.testBit 6 then 1 else 0) +
      32 * (if c.testBit 5 then 1 else 0) + 16 * (if c.testBit 4 then 1 else 0) +
      8 * (if c.testBit 3 then 1 else 0) + 4 * (if c.testBit 2 then 1 else 0) +
      2 * (if c.testBit 1 then 1 else 0) + (if c.testBit 0 then 1 else 0) = c := by
  decide

theorem toValAux_byte (b : bit_array_c) (i : Nat) (hc : b.m_Array.getD i 0 < 256) :
    toValAux b (8 * i + 8) = 256 * toValAux b (8 * i) + b.m_Array.getD i 0 := by
  have e7 : toValAux b (8*i+8)
      = 2 * toValAux b (8*i+7) + (if bitAt b (8*i+7) then 1 else 0) := rfl
  have e6 : toValAux b (8*i+7)
      = 2 * toValAux b (8*i+6) + (if bitAt b (8*i+6) then 1 else 0) := rfl
  have e5 : toValAux b (8*i+6)
      = 2 * toValAux b (8*i+5) + (if bitAt b (8*i+5) then 1 else 0) := rfl
  have e4 : toValAux b (8*i+5)
      = 2 * toValAux b (8*i+4) + (if bitAt b (8*i+4) then 1 else 0) := rfl
  have e3 : toValAux b (8*i+4)
      = 2 * toValAux b (8*i+3) + (if bitAt b (8*i+3) then 1 else 0) := rfl
  have e2 : toValAux b (8*i+3)
      = 2 * toValAux b (8*i+2) + (if bitAt b (8*i+2) then 1 else 0) := rfl
  have e1 : toValAux b (8*i+2)
      = 2 * toValAux b (8*i+1) + (if bitAt b (8*i+1) then 1 else 0) := rfl
  have e0 : toValAux b (8*i+1)
      = 2 * toValAux b (8*i) + (if bitAt b (8*i) then 1 else 0) := rfl
  have h7 : bitAt b (8*i+7) = (b.m_Array.getD i 0).testBit 0 :=
    bitAt_byte b i 7 (by norm_num)
  have h6 : bitAt b (8*i+6) = (b.m_Array.getD i 0).testBit 1 :=
    bitAt_byte b i 6 (by norm_num)
  have h5 : bitAt b (8*i+5) = (b.m_Array.getD i 0).testBit 2 :=
    bitAt_byte b i 5 (by norm_num)
  have h4 : bitAt b (8*i+4) = (b.m_Array.getD i 0).testBit 3 :=
    bitAt_byte b i 4 (by norm_num)
  have h3 : bitAt b (8*i+3) = (b.m_Array.getD i 0).testBit 4 :=
    bitAt_byte b i 3 (by norm_num)
  have h2 : bitAt b (8*i+2) = (b.m_Array.getD i 0).testBit 5 :=
    bitAt_byte b i 2 (by norm_num)
  have h1 : bitAt b (8*i+1) = (b.m_Array.getD i 0).testBit 6 :=
    bitAt_byte b i 1 (by norm_num)
  have h0 : bitAt b (8*i) = (b.m_Array.getD i 0).testBit 7 := by
    have := bitAt_byte b i 0 (by norm_num)
    simpa using this
  rw [e7, e6, e5, e4, e3, e2, e1, e0, h7, h6, h5, h4, h3, h2, h1, h0]
  have hs := bits_sum (b.m_Array.getD i 0) hc
  omega

theorem toValAux_zeros (b : bit_array_c) (p : Nat) :
    ∀ k, (∀ q, p ≤ q → q < p + k → bitAt b q = false) →
      toValAux b (p + k) = 2 ^ k * toValAux b p := by
  intro k
  induction k with
  | zero => intro _; simp
  | succ k ih =>
    intro hz
    rw [show p + (k+1) = (p+k)+1 by omega, toValAux_succ,
      ih (fun q h1 h2 => hz q h1 (by omega)), hz (p+k) (by omega) (by omega)]
    simp
    ring

theorem toValAux_partial (b : bit_array_c) (i u : Nat) (h1 : 1 ≤ u) (h2 : u ≤ 8)
    (hc : b.m_Array.getD i 0 < 256) (hd : 2 ^ (8 - u) ∣ b.m_Array.getD i 0) :
    toValAux b (8 * i + u)
      = 2 ^ u * toValAux b (8 * i) + b.m_Array.getD i 0 / 2 ^ (8 - u) := by
  have hz : ∀ q, 8*i+u ≤ q → q < (8*i+u) + (8-u) → bitAt b q = false := by
    intro q hq1 hq2
    have hq : q = 8*i + (q - 8*i) := by omega
    rw [hq, bitAt_byte b i (q - 8*i) (by omega)]
    rw [two_pow_dvd_iff_testBit] at hd
    exact hd _ (by omega)
  have hfull := toValAux_byte b i hc
  have hzz := toValAux_zeros b (8*i+u) (8-u) hz
  rw [show (8*i+u) + (8-u) = 8*i+8 by omega] at hzz
  obtain ⟨d, hdd⟩ := hd
  have h256 : (256 : Nat) = 2^(8-u) * 2^u := by
    rw [← pow_add, show 8 - u + u = 8 by omega]
    norm_num
  have heq : 2^(8-u) * toValAux b (8*i+u)
      = 2^(8-u) * (2^u * toValAux b (8*i) + d) := by
    rw [← hzz, hfull, hdd, h256]
    ring
  have hpos : 0 < 2^(8-u) := by positivity
  have hcan := Nat.eq_of_mul_eq_mul_left hpos heq
  rw [hcan, hdd]
  congr 1
  rw [Nat.mul_div_cancel_left d hpos]

theorem toValAux_lt (b : bit_array_c) : ∀ p, toValAux b p < 2 ^ p := by
  intro p
  induction p with
  | zero => norm_num [toValAux]
  | succ p ih =>
    rw [toValAux_succ]
    have h1 : (if bitAt b p then 1 else 0) ≤ 1 := by split <;> omega
    have h2 : (2:Nat) ^ (p+1) = 2 * 2 ^ p := by ring
    omega

theorem beVal_append (l : List Nat) (x : Nat) : beVal (l ++ [x]) = beVal l * 256 + x := by
  unfold beVal
  rw [List.foldl_append]
  rfl

theorem beVal_lt : ∀ (l : List Nat), (∀ c ∈ l, c < 256) → beVal l < 256 ^ l.length := by
  intro l
  induction l using List.reverseRecOn with
  | nil => intro _; norm_num [beVal]
  | append_singleton l x ih =>
    intro h
    rw [beVal_append]
    have h1 := ih (fun c hc => h c (by simp [hc]))
    have h2 : x < 256 := h x (by simp)
    have h3 : (256:Nat) ^ (l ++ [x]).length = 256 ^ l.length * 256 := by
      simp [pow_succ]
    rw [h3]
    omega

theorem toValAux_prefix (b : bit_array_c) (hB : Bytes256 b) :
    ∀ i, i ≤ b.m_Array.length → toValAux b (8 * i) = beVal (b.m_Array.take i) := by
  intro i
  induction i with
  | zero => intro _; rfl
  | succ i ih =>
    intro h
    have hi : i < b.m_Array.length := by omega
    have hbyte : b.m_Array.getD i 0 < 256 := by
      rw [List.getD_eq_getElem _ _ hi]
      exact hB _ (List.getElem_mem hi)
    rw [show 8 * (i+1) = 8*i + 8 by ring]
    rw [toValAux_byte b i hbyte, ih (by omega)]
    rw [List.take_succ, List.getElem?_eq_getElem hi]
    rw [show (some (b.m_Array[i])).toList = [b.m_Array[i]] from rfl]
    rw [beVal_append]
    rw [List.getD_eq_getElem _ _ hi]
    ring

theorem split_last (l : List Nat) (h : 1 ≤ l.length) :
    l = l.take (l.length - 1) ++ [l.getD (l.length - 1) 0] := by
  conv_lhs => rw [← List.take_append_drop (l.length - 1) l]
  congr 1
  rw [List.drop_eq_getElem_cons (by omega)]
  rw [show l.length - 1 + 1 = l.length by omega, List.drop_length]
  rw [List.getD_eq_getElem _ _ (by omega)]

/-- On a well-formed vector the base-256 value of the chars is the logical
value shifted left by the number of spare bits. -/
theorem beVal_eq_toVal (b : bit_array_c) (hA : StorageOk b) (hB : Bytes256 b)
    (hS : SpareLast b) (hn : 1 ≤ b.m_NumBits) :
    beVal b.m_Array = toVal b * 2 ^ pad b.m_NumBits := by
  have hA' := hA
  unfold StorageOk at hA'
  have hL1 : 1 ≤ b.m_Array.length := by omega
  have hu : b.m_NumBits = 8 * (b.m_Array.length - 1)
      + (b.m_NumBits - 8 * (b.m_Array.length - 1)) := by omega
  set u := b.m_NumBits - 8 * (b.m_Array.length - 1) with hudef
  have hu1 : 1 ≤ u := by omega
  have hu8 : u ≤ 8 := by omega
  have hpad : pad b.m_NumBits = 8 - u := by
    unfold pad
    omega
  have hclt : b.m_Array.getD (b.m_Array.length - 1) 0 < 256 := by
    rw [List.getD_eq_getElem _ _ (by omega)]
    exact hB _ (List.getElem_mem (by omega))
  have hdvd : 2 ^ (8 - u) ∣ b.m_Array.getD (b.m_Array.length - 1) 0 := by
    rw [← hpad]
    exact hS
  have hval : toVal b = 2 ^ u * toValAux b (8 * (b.m_Array.length - 1))
      + b.m_Array.getD (b.m_Array.length - 1) 0 / 2 ^ (8 - u) := by
    show toValAux b b.m_NumBits = _
    rw [show toValAux b b.m_NumBits
      = toValAux b (8 * (b.m_Array.length - 1) + u) from by rw [← hu]]
    exact toValAux_partial b _ u hu1 hu8 hclt hdvd
  have hpre := toValAux_prefix b hB (b.m_Array.length - 1) (by omega)
  have hsplit := split_last b.m_Array hL1
  have hbv : beVal b.m_Array
      = beVal (b.m_Array.take (b.m_Array.length - 1)) * 256
        + b.m_Array.getD (b.m_Array.length - 1) 0 := by
    conv_lhs => rw [hsplit]
    rw [beVal_append]
  rw [hbv, hval, hpad, ← hpre]
  obtain ⟨d, hdd2⟩ := hdvd
  rw [hdd2, Nat.mul_div_cancel_left d (by positivity)]
  have h256 : (256 : Nat) = 2 ^ u * 2 ^ (8 - u) := by
    rw [← pow_add, show u + (8 - u) = 8 by omega]
    norm_num
  rw [h256]
  ring

theorem getElem?_mid (l r : List Nat) (x : Nat) : ((l ++ [x]) ++ r)[l.length]? = some x := by
  rw [List.getElem?_append_left (by simp)]
  rw [List.getElem?_append_right (le_refl _)]
  simp

theorem set_mid :
    ∀ (l r : List Nat) (x v : Nat), ((l ++ [x]) ++ r).set l.length v = (l ++ [v]) ++ r := by
  intro l
  induction l with
  | nil => intro r x v; rfl
  | cons a l ih =>
    intro r x v
    simp only [List.cons_append, List.length_cons, List.set_cons_succ]
    have := ih r x v
    simp only [List.cons_append] at this ⊢
    rw [show (l ++ [x] ++ r).set l.length v = ((l ++ [x]) ++ r).set l.length v from rfl, this]

/-- Largest multiple: a multiple of `one` below 256 other than `256 - one`
leaves room for one more step. -/
theorem mult_step_lt {one x : Nat} (hone : 1 ≤ one) (h256 : one ∣ 256) (hx : x < 256)
    (hdx : one ∣ x) (hne : x ≠ 256 - one) : x + one < 256 := by
  have h1 : one ∣ 256 - x := Nat.dvd_sub' h256 hdx
  obtain ⟨t, ht⟩ := h1
  have ht1 : t ≠ 0 := by
    intro h0
    rw [h0] at ht
    omega
  have ht2 : t ≠ 1 := by
    intro h1'
    rw [h1'] at ht
    omega
  have : 2 * one ≤ one * t := by
    rw [mul_comm 2 one]
    exact Nat.mul_le_mul_left one (by omega)
  omega

/-- Value specification of the increment loop: processing the final char
`x` with step `one` and the earlier chars with step 1 adds `one` to the
base-256 value, modulo the width. -/
theorem incLoop_value :
    ∀ (a0 : List Nat) (x : Nat) (bl : List Nat) (one : Nat),
      1 ≤ one → one ∣ 256 → (∀ c ∈ a0, c < 256) → x < 256 → one ∣ x →
      ∃ a', incLoop ((a0 ++ [x]) ++ bl) (256 - one) one ((a0 ++ [x]).length - 1)
          = some (a' ++ bl) ∧
        a'.length = a0.length + 1 ∧ (∀ c ∈ a', c < 256) ∧
        beVal a' = (beVal (a0 ++ [x]) + one) % 256 ^ (a0.length + 1) := by
  intro a0
  induction a0 using List.reverseRecOn with
  | nil =>
    intro x bl one hone h256 hbytes hx hdx
    have hone256 : one ≤ 256 := Nat.le_of_dvd (by norm_num) h256
    have hbx : beVal [x] = x := by simp [beVal]
    have hget0 : getByte (x :: bl) 0 = some x := by
      show (x :: bl)[0]? = some x
      simp
    have hset0 : ∀ v, setByte (x :: bl) 0 v = some (v :: bl) := by
      intro v
      rw [setByte_some _ (by simp)]
      rfl
    by_cases hxm : x = 256 - one
    · refine ⟨[0], ?_, by simp, by simp, ?_⟩
      · show incLoop (x :: bl) (256 - one) one 0 = some (0 :: bl)
        simp only [incLoop]
        rw [hget0]
        show (if x ≠ 256 - one then setByte (x :: bl) 0 ((x + one) % 256)
          else setByte (x :: bl) 0 0) = some (0 :: bl)
        rw [if_neg (by simpa using hxm)]
        exact hset0 0
      · rw [show beVal [0] = 0 from by simp [beVal]]
        simp only [List.nil_append, hbx, List.length_nil, Nat.zero_add, pow_one]
        omega
    · refine ⟨[(x + one) % 256], ?_, by simp, ?_, ?_⟩
      · show incLoop (x :: bl) (256 - one) one 0 = some ((x + one) % 256 :: bl)
        simp only [incLoop]
        rw [hget0]
        show (if x ≠ 256 - one then setByte (x :: bl) 0 ((x + one) % 256)
          else setByte (x :: bl) 0 0) = some ((x + one) % 256 :: bl)
        rw [if_pos hxm]
        exact hset0 _
      · intro c hc
        simp at hc
        subst hc
        exact Nat.mod_lt _ (by norm_num)
      · rw [show beVal [(x + one) % 256] = (x + one) % 256 from by simp [beVal]]
        simp only [List.nil_append, hbx, List.length_nil, Nat.zero_add, pow_one]
  | append_singleton l y ih =>
    intro x bl one hone h256 hbytes hx hdx
    have hone256 : one ≤ 256 := Nat.le_of_dvd (by norm_num) h256
    have hidx : ((l ++ [y]) ++ [x]).length - 1 = l.length + 1 := by simp
    rw [hidx]
    have hget : getByte (((l ++ [y]) ++ [x]) ++ bl) (l.length + 1) = some x := by
      show (((l ++ [y]) ++ [x]) ++ bl)[l.length + 1]? = some x
      rw [show l.length + 1 = (l ++ [y]).length from by simp]
      exact getElem?_mid (l ++ [y]) bl x
    have hsetv : ∀ v, setByte (((l ++ [y]) ++ [x]) ++ bl) (l.length + 1) v
        = some (((l ++ [y]) ++ [v]) ++ bl) := by
      intro v
      rw [setByte_some _ (by simp)]
      congr 1
      rw [show l.length + 1 = (l ++ [y]).length from by simp]
      exact set_mid (l ++ [y]) bl x v
    have hby : beVal ((l ++ [y]) ++ [x]) = beVal (l ++ [y]) * 256 + x :=
      beVal_append _ _
    by_cases hxm : x = 256 - one
    · -- carry into the earlier chars
      obtain ⟨a'', hihEq, hihLen, hihBytes, hihVal⟩ :=
        ih y (0 :: bl) 1 (by norm_num) (by norm_num)
          (fun c hc => hbytes c (by simp [hc])) (hbytes y (by simp)) (one_dvd y)
      have hihEq' : incLoop (((l ++ [y]) ++ [0]) ++ bl) UCHAR_MAX 1 l.length
          = some ((a'' ++ [0]) ++ bl) := by
        rw [show ((l ++ [y]) ++ [0]) ++ bl = (l ++ [y]) ++ (0 :: bl) from by simp]
        rw [show (a'' ++ [0]) ++ bl = a'' ++ (0 :: bl) from by simp]
        rw [show (UCHAR_MAX : Nat) = 256 - 1 from rfl]
        rw [show l.length = (l ++ [y]).length - 1 from by simp]
        exact hihEq
      refine ⟨a'' ++ [0], ?_, by simp [hihLen], ?_, ?_⟩
      · show (Bind.bind (getByte (((l ++ [y]) ++ [x]) ++ bl) (l.length + 1)) fun c =>
          if c ≠ 256 - one then
            setByte (((l ++ [y]) ++ [x]) ++ bl) (l.length + 1) ((c + one) % 256)
          else Bind.bind (setByte (((l ++ [y]) ++ [x]) ++ bl) (l.length + 1) 0) fun arr2 =>
            incLoop arr2 UCHAR_MAX 1 l.length) = some ((a'' ++ [0]) ++ bl)
        rw [hget]
        show (if x ≠ 256 - one then
            setByte (((l ++ [y]) ++ [x]) ++ bl) (l.length + 1) ((x + one) % 256)
          else Bind.bind (setByte (((l ++ [y]) ++ [x]) ++ bl) (l.length + 1) 0) fun arr2 =>
            incLoop arr2 UCHAR_MAX 1 l.length) = some ((a'' ++ [0]) ++ bl)
        rw [if_neg (by simpa using hxm), hsetv 0]
        show incLoop (((l ++ [y]) ++ [0]) ++ bl) UCHAR_MAX 1 l.length
          = some ((a'' ++ [0]) ++ bl)
        exact hihEq'
      · intro c hc
        simp at hc
        rcases hc with hc | hc
        · exact hihBytes c hc
        · omega
      · rw [beVal_append, hihVal, hby]
        have hstep : (beVal (l ++ [y]) + 1) % 256 ^ (l.length + 1) * 256
            = (beVal (l ++ [y]) + 1) * 256 % (256 ^ (l.length + 1) * 256) :=
          (Nat.mul_mod_mul_right 256 _ _).symm
        rw [hstep]
        rw [show (256:Nat) ^ (l.length + 1) * 256 = 256 ^ ((l ++ [y]).length + 1) from by
          simp [pow_succ]]
        rw [Nat.add_zero]
        have hxo : x + one = 256 := by omega
        congr 1
        omega
    · -- the final char absorbs the step
      have hlt : x + one < 256 := mult_step_lt hone h256 hx hdx hxm
      refine ⟨(l ++ [y]) ++ [(x + one) % 256], ?_, by simp, ?_, ?_⟩
      · show (Bind.bind (getByte (((l ++ [y]) ++ [x]) ++ bl) (l.length + 1)) fun c =>
          if c ≠ 256 - one then
            setByte (((l ++ [y]) ++ [x]) ++ bl) (l.length + 1) ((c + one) % 256)
          else Bind.bind (setByte (((l ++ [y]) ++ [x]) ++ bl) (l.length + 1) 0) fun arr2 =>
            incLoop arr2 UCHAR_MAX 1 l.length)
          = some (((l ++ [y]) ++ [(x + one) % 256]) ++ bl)
        rw [hget]
        show (if x ≠ 256 - one then
            setByte (((l ++ [y]) ++ [x]) ++ bl) (l.length + 1) ((x + one) % 256)
          else Bind.bind (setByte (((l ++ [y]) ++ [x]) ++ bl) (l.length + 1) 0) fun arr2 =>
            incLoop arr2 UCHAR_MAX 1 l.length)
          = some (((l ++ [y]) ++ [(x + one) % 256]) ++ bl)
        rw [if_pos hxm, hsetv ((x + one) % 256)]
      · intro c hc
        simp at hc
        rcases hc with hc | hc | hc
        · exact hbytes c (by simp [hc])
        · subst hc
          exact hbytes _ (by simp)
        · subst hc
          exact Nat.mod_lt _ (by norm_num)
      · rw [beVal_append, hby]
        rw [Nat.mod_eq_of_lt hlt]
        have hbv := beVal_lt (l ++ [y]) (fun c hc => hbytes c hc)
        have hmono : beVal (l ++ [y]) * 256 + x + one < 256 ^ ((l ++ [y]).length + 1) := by
          rw [pow_succ]
          omega
        rw [Nat.mod_eq_of_lt hmono]
        omega

/-- Adding `M - one` modulo `M` subtracts `one` when the value is large
enough. -/
theorem mod_sub_step (v M one : Nat) (hv : v < M) (honev : one ≤ v) :
    (v + (M - one)) % M = v - one := by
  rw [show v + (M - one) = M + (v - one) from by omega, Nat.add_mod_left,
    Nat.mod_eq_of_lt (by omega)]

/-- Arithmetic core of the borrow case: the final char takes `256 - one`
while the earlier chars lose 1 modulo their width. -/
theorem borrow_arith (B P one : Nat) (hB : B < P) (hone : 1 ≤ one)
    (hone256 : one ≤ 256) (hP : 1 ≤ P) :
    (B + (P - 1)) % P * 256 + (256 - one) = (B * 256 + (P * 256 - one)) % (P * 256) := by
  have hBP : B * 256 + 256 ≤ P * 256 := by
    have := Nat.mul_le_mul_right 256 (show B + 1 ≤ P by omega)
    omega
  rcases Nat.eq_zero_or_pos B with hB0 | hB1
  · subst hB0
    rw [Nat.zero_add, Nat.mod_eq_of_lt (by omega), Nat.zero_mul, Nat.zero_add,
      Nat.mod_eq_of_lt (by omega)]
    omega
  · have h1 : (B + (P - 1)) % P = B - 1 := by
      rw [Nat.mod_eq_sub_mod (by omega), show B + (P - 1) - P = B - 1 from by omega,
        Nat.mod_eq_of_lt (by omega)]
    have h2 : B * 256 + (P * 256 - one) = P * 256 + (B * 256 - one) := by omega
    rw [h1, h2, Nat.add_mod_left, Nat.mod_eq_of_lt (by omega)]
    omega

/-- Value specification of the decrement loop: processing the final char
`x` with step `one` and the earlier chars with step 1 subtracts `one` from
the base-256 value, modulo the width. -/
theorem decLoop_value :
    ∀ (a0 : List Nat) (x : Nat) (bl : List Nat) (one : Nat),
      1 ≤ one → one ∣ 256 → (∀ c ∈ a0, c < 256) → x < 256 → one ∣ x →
      ∃ a', decLoop ((a0 ++ [x]) ++ bl) (256 - one) one ((a0 ++ [x]).length - 1)
          = some (a' ++ bl) ∧
        a'.length = a0.length + 1 ∧ (∀ c ∈ a', c < 256) ∧
        beVal a' = (beVal (a0 ++ [x]) + (256 ^ (a0.length + 1) - one))
          % 256 ^ (a0.length + 1) := by
  intro a0
  induction a0 using List.reverseRecOn with
  | nil =>
    intro x bl one hone h256 hbytes hx hdx
    have hone256 : one ≤ 256 := Nat.le_of_dvd (by norm_num) h256
    have hbx : beVal [x] = x := by simp [beVal]
    have hget0 : getByte (x :: bl) 0 = some x := by
      show (x :: bl)[0]? = some x
      simp
    have hset0 : ∀ v, setByte (x :: bl) 0 v = some (v :: bl) := by
      intro v
      rw [setByte_some _ (by simp)]
      rfl
    by_cases hxm : one ≤ x
    · refine ⟨[x - one], ?_, by simp, ?_, ?_⟩
      · show decLoop (x :: bl) (256 - one) one 0 = some ((x - one) :: bl)
        simp only [decLoop]
        rw [hget0]
        show (if one ≤ x then setByte (x :: bl) 0 (x - one)
          else setByte (x :: bl) 0 (256 - one)) = some ((x - one) :: bl)
        rw [if_pos hxm]
        exact hset0 _
      · intro c hc
        simp at hc
        subst hc
        omega
      · rw [show beVal [x - one] = x - one from by simp [beVal]]
        simp only [List.nil_append, hbx, List.length_nil, Nat.zero_add, pow_one]
        omega
    · have hx0 : x = 0 := Nat.eq_zero_of_dvd_of_lt hdx (by omega)
      refine ⟨[256 - one], ?_, by simp, ?_, ?_⟩
      · show decLoop (x :: bl) (256 - one) one 0 = some ((256 - one) :: bl)
        simp only [decLoop]
        rw [hget0]
        show (if one ≤ x then setByte (x :: bl) 0 (x - one)
          else setByte (x :: bl) 0 (256 - one)) = some ((256 - one) :: bl)
        rw [if_neg hxm]
        exact hset0 _
      · intro c hc
        simp at hc
        subst hc
        omega
      · rw [show beVal [256 - one] = 256 - one from by simp [beVal]]
        simp only [List.nil_append, hbx, List.length_nil, Nat.zero_add, pow_one]
        omega
  | append_singleton l y ih =>
    intro x bl one hone h256 hbytes hx hdx
    have hone256 : one ≤ 256 := Nat.le_of_dvd (by norm_num) h256
    have hidx : ((l ++ [y]) ++ [x]).length - 1 = l.length + 1 := by simp
    rw [hidx]
    have hget : getByte (((l ++ [y]) ++ [x]) ++ bl) (l.length + 1) = some x := by
      show (((l ++ [y]) ++ [x]) ++ bl)[l.length + 1]? = some x
      rw [show l.length + 1 = (l ++ [y]).length from by simp]
      exact getElem?_mid (l ++ [y]) bl x
    have hsetv : ∀ v, setByte (((l ++ [y]) ++ [x]) ++ bl) (l.length + 1) v
        = some (((l ++ [y]) ++ [v]) ++ bl) := by
      intro v
      rw [setByte_some _ (by simp)]
      congr 1
      rw [show l.length + 1 = (l ++ [y]).length from by simp]
      exact set_mid (l ++ [y]) bl x v
    have hby : beVal ((l ++ [y]) ++ [x]) = beVal (l ++ [y]) * 256 + x :=
      beVal_append _ _
    have hbv := beVal_lt (l ++ [y]) (fun c hc => hbytes c hc)
    have hlen1 : (l ++ [y]).length = l.length + 1 := by simp
    by_cases hxm : one ≤ x
    · -- the final char absorbs the step
      refine ⟨(l ++ [y]) ++ [x - one], ?_, by simp, ?_, ?_⟩
      · show (Bind.bind (getByte (((l ++ [y]) ++ [x]) ++ bl) (l.length + 1)) fun c =>
          if one ≤ c then
            setByte (((l ++ [y]) ++ [x]) ++ bl) (l.length + 1) (c - one)
          else Bind.bind (setByte (((l ++ [y]) ++ [x]) ++ bl) (l.length + 1) (256 - one))
            fun arr2 => decLoop arr2 UCHAR_MAX 1 l.length)
          = some (((l ++ [y]) ++ [x - one]) ++ bl)
        rw [hget]
        show (if one ≤ x then
            setByte (((l ++ [y]) ++ [x]) ++ bl) (l.length + 1) (x - one)
          else Bind.bind (setByte (((l ++ [y]) ++ [x]) ++ bl) (l.length + 1) (256 - one))
            fun arr2 => decLoop arr2 UCHAR_MAX 1 l.length)
          = some (((l ++ [y]) ++ [x - one]) ++ bl)
        rw [if_pos hxm, hsetv (x - one)]
      · intro c hc
        simp at hc
        rcases hc with hc | hc | hc
        · exact hbytes c (by simp [hc])
        · subst hc
          exact hbytes _ (by simp)
        · subst hc
          omega
      · rw [beVal_append, hby]
        have hv : beVal (l ++ [y]) * 256 + x < 256 ^ ((l ++ [y]).length + 1) := by
          rw [pow_succ]
          omega
        rw [mod_sub_step _ _ one hv (by omega)]
        omega
    · -- borrow into the earlier chars
      have hx0 : x = 0 := Nat.eq_zero_of_dvd_of_lt hdx (by omega)
      obtain ⟨a'', hihEq, hihLen, hihBytes, hihVal⟩ :=
        ih y ((256 - one) :: bl) 1 (by norm_num) (by norm_num)
          (fun c hc => hbytes c (by simp [hc])) (hbytes y (by simp)) (one_dvd y)
      have hihEq' : decLoop (((l ++ [y]) ++ [256 - one]) ++ bl) UCHAR_MAX 1 l.length
          = some ((a'' ++ [256 - one]) ++ bl) := by
        rw [show ((l ++ [y]) ++ [256 - one]) ++ bl
            = (l ++ [y]) ++ ((256 - one) :: bl) from by simp]
        rw [show (a'' ++ [256 - one]) ++ bl = a'' ++ ((256 - one) :: bl) from by simp]
        rw [show (UCHAR_MAX : Nat) = 256 - 1 from rfl]
        rw [show l.length = (l ++ [y]).length - 1 from by simp]
        exact hihEq
      refine ⟨a'' ++ [256 - one], ?_, by simp [hihLen], ?_, ?_⟩
      · show (Bind.bind (getByte (((l ++ [y]) ++ [x]) ++ bl) (l.length + 1)) fun c =>
          if one ≤ c then
            setByte (((l ++ [y]) ++ [x]) ++ bl) (l.length + 1) (c - one)
          else Bind.bind (setByte (((l ++ [y]) ++ [x]) ++ bl) (l.length + 1) (256 - one))
            fun arr2 => decLoop arr2 UCHAR_MAX 1 l.length)
          = some ((a'' ++ [256 - one]) ++ bl)
        rw [hget]
        show (if one ≤ x then
            setByte (((l ++ [y]) ++ [x]) ++ bl) (l.length + 1) (x - one)
          else Bind.bind (setByte (((l ++ [y]) ++ [x]) ++ bl) (l.length + 1) (256 - one))
            fun arr2 => decLoop arr2 UCHAR_MAX 1 l.length)
          = some ((a'' ++ [256 - one]) ++ bl)
        rw [if_neg hxm, hsetv (256 - one)]
        show decLoop (((l ++ [y]) ++ [256 - one]) ++ bl) UCHAR_MAX 1 l.length
          = some ((a'' ++ [256 - one]) ++ bl)
        exact hihEq'
      · intro c hc
        simp at hc
        rcases hc with hc | hc
        · exact hihBytes c hc
        · omega
      · rw [beVal_append, hihVal, hby, hx0, Nat.add_zero]
        have hP1 : 1 ≤ 256 ^ (l.length + 1) := Nat.one_le_pow _ _ (by norm_num)
        have hbv' : beVal (l ++ [y]) < 256 ^ (l.length + 1) := by
          rw [← hlen1]
          exact hbv
        rw [show (256:Nat) ^ ((l ++ [y]).length + 1) = 256 ^ (l.length + 1) * 256 from by
          rw [hlen1, pow_succ]]
        exact borrow_arith (beVal (l ++ [y])) (256 ^ (l.length + 1)) one hbv' hone
          hone256 hP1

/-- The `maxValue` expression computed by `operator++`/`operator--` is the
complement of the spare-bit step within one char. -/
theorem maxValue_eq (n : Nat) :
    (if n % 8 ≠ 0 then (UCHAR_MAX <<< (CHAR_BIT - n % 8)) % 256 else UCHAR_MAX)
      = 256 - 2 ^ pad n := by
  by_cases h : n % 8 = 0
  · rw [if_neg (by simpa using h)]
    unfold pad
    rw [h]
    decide
  · rw [if_pos h]
    have hr1 : 1 ≤ n % 8 := by omega
    have hr8 : n % 8 < 8 := Nat.mod_lt n (by norm_num)
    show (255 <<< (8 - n % 8)) % 256 = 256 - 2 ^ ((8 - n % 8) % 8)
    set r := n % 8 with hr
    interval_cases r <;> decide

/-- `operator++` on a well-formed spare-zero state: it succeeds and adds
the one-in-the-lowest-used-bit constant `2 ^ pad` to the base-256 value of
the storage, modulo the full storage width. -/
theorem increment_spec (b : bit_array_c) (hA : StorageOk b) (hB : Bytes256 b)
    (h32 : NumBits32 b) (hS : SpareLast b) (hn : 1 ≤ b.m_NumBits) :
    ∃ b', increment b = some b' ∧ b'.m_NumBits = b.m_NumBits ∧
      b'.m_Array.length = b.m_Array.length ∧ (∀ c ∈ b'.m_Array, c < 256) ∧
      beVal b'.m_Array
        = (beVal b.m_Array + 2 ^ pad b.m_NumBits) % 256 ^ b.m_Array.length := by
  have hA' := hA
  unfold StorageOk at hA'
  have hL1 : 1 ≤ b.m_Array.length := by omega
  have hne0 : ¬ b.m_Array.length = 0 := by omega
  obtain ⟨hidx, hn1⟩ := lastIdx_eq hA h32 (by omega)
  have hsplit := split_last b.m_Array hL1
  have ha0len : (b.m_Array.take (b.m_Array.length - 1)).length
      = b.m_Array.length - 1 := by
    rw [List.length_take]
    omega
  have ha0bytes : ∀ c ∈ b.m_Array.take (b.m_Array.length - 1), c < 256 :=
    fun c hc => hB c (List.mem_of_mem_take hc)
  have hx256 : b.m_Array.getD (b.m_Array.length - 1) 0 < 256 := by
    rw [List.getD_eq_getElem _ _ (by omega)]
    exact hB _ (List.getElem_mem _)
  have hdvd256 : 2 ^ pad b.m_NumBits ∣ 256 := by
    have hp := pad_le b.m_NumBits
    rw [show (256:Nat) = 2 ^ 8 from by norm_num]
    exact pow_dvd_pow 2 (by omega)
  obtain ⟨a', hloop, halen, habytes, haval⟩ :=
    incLoop_value (b.m_Array.take (b.m_Array.length - 1))
      (b.m_Array.getD (b.m_Array.length - 1) 0) [] (2 ^ pad b.m_NumBits)
      Nat.one_le_two_pow hdvd256 ha0bytes hx256 hS
  simp only [List.append_nil] at hloop
  rw [← hsplit] at hloop
  refine ⟨⟨b.m_NumBits, a'⟩, ?_, rfl, ?_, habytes, ?_⟩
  · simp only [increment]
    rw [if_neg hne0, hidx]
    have hone : (if b.m_NumBits % CHAR_BIT ≠ 0
        then (1 <<< (CHAR_BIT - b.m_NumBits % CHAR_BIT)) % 256 else 1)
        = 2 ^ pad b.m_NumBits := one_eq b.m_NumBits
    have hmv : (if b.m_NumBits % CHAR_BIT ≠ 0
        then (UCHAR_MAX <<< (CHAR_BIT - b.m_NumBits % CHAR_BIT)) % 256 else UCHAR_MAX)
        = 256 - 2 ^ pad b.m_NumBits := maxValue_eq b.m_NumBits
    rw [hone, hmv, hloop]
    rfl
  · show a'.length = b.m_Array.length
    omega
  · rw [show (b.m_Array.take (b.m_Array.length - 1)).length + 1
        = b.m_Array.length from by omega] at haval
    rw [← hsplit] at haval
    exact haval

/-- `operator--` on a well-formed spare-zero state: it succeeds and
subtracts `2 ^ pad` from the base-256 value of the storage, modulo the
full storage width. -/
theorem decrement_spec (b : bit_array_c) (hA : StorageOk b) (hB : Bytes256 b)
    (h32 : NumBits32 b) (hS : SpareLast b) (hn : 1 ≤ b.m_NumBits) :
    ∃ b', decrement b = some b' ∧ b'.m_NumBits = b.m_NumBits ∧
      b'.m_Array.length = b.m_Array.length ∧ (∀ c ∈ b'.m_Array, c < 256) ∧
      beVal b'.m_Array
        = (beVal b.m_Array + (256 ^ b.m_Array.length - 2 ^ pad b.m_NumBits))
          % 256 ^ b.m_Array.length := by
  have hA' := hA
  unfold StorageOk at hA'
  have hL1 : 1 ≤ b.m_Array.length := by omega
  have hne0 : ¬ b.m_Array.length = 0 := by omega
  obtain ⟨hidx, hn1⟩ := lastIdx_eq hA h32 (by omega)
  have hsplit := split_last b.m_Array hL1
  have ha0len : (b.m_Array.take (b.m_Array.length - 1)).length
      = b.m_Array.length - 1 := by
    rw [List.length_take]
    omega
  have ha0bytes : ∀ c ∈ b.m_Array.take (b.m_Array.length - 1), c < 256 :=
    fun c hc => hB c (List.mem_of_mem_take hc)
  have hx256 : b.m_Array.getD (b.m_Array.length - 1) 0 < 256 := by
    rw [List.getD_eq_getElem _ _ (by omega)]
    exact hB _ (List.getElem_mem _)
  have hdvd256 : 2 ^ pad b.m_NumBits ∣ 256 := by
    have hp := pad_le b.m_NumBits
    rw [show (256:Nat) = 2 ^ 8 from by norm_num]
    exact pow_dvd_pow 2 (by omega)
  obtain ⟨a', hloop, halen, habytes, haval⟩ :=
    decLoop_value (b.m_Array.take (b.m_Array.length - 1))
      (b.m_Array.getD (b.m_Array.length - 1) 0) [] (2 ^ pad b.m_NumBits)
      Nat.one_le_two_pow hdvd256 ha0bytes hx256 hS
  simp only [List.append_nil] at hloop
  rw [← hsplit] at hloop
  refine ⟨⟨b.m_NumBits, a'⟩, ?_, rfl, ?_, habytes, ?_⟩
  · simp only [decrement]
    rw [if_neg hne0, hidx]
    have hone : (if b.m_NumBits % CHAR_BIT ≠ 0
        then (1 <<< (CHAR_BIT - b.m_NumBits % CHAR_BIT)) % 256 else 1)
        = 2 ^ pad b.m_NumBits := one_eq b.m_NumBits
    have hmv : (if b.m_NumBits % CHAR_BIT ≠ 0
        then (UCHAR_MAX <<< (CHAR_BIT - b.m_NumBits % CHAR_BIT)) % 256 else UCHAR_MAX)
        = 256 - 2 ^ pad b.m_NumBits := maxValue_eq b.m_NumBits
    rw [hone, hmv, hloop]
    rfl
  · show a'.length = b.m_Array.length
    omega
  · rw [show (b.m_Array.take (b.m_Array.length - 1)).length + 1
        = b.m_Array.length from by omega] at haval
    rw [← hsplit] at haval
    exact haval

/-- `operator++` adds 1 to the bit-0-most-significant value, modulo
`2 ^ m_NumBits`. -/
theorem toVal_of_increment {b b' : bit_array_c} (hA : StorageOk b) (hB : Bytes256 b)
    (h32 : NumBits32 b) (hS : SpareLast b) (hn : 1 ≤ b.m_NumBits)
    (h : increment b = some b') :
    toVal b' = (toVal b + 1) % 2 ^ b.m_NumBits := by
  obtain ⟨b₀, h0, hnb0, hlen0, hbytes0, hval0⟩ := increment_spec b hA hB h32 hS hn
  rw [h] at h0
  obtain rfl : b' = b₀ := Option.some.inj h0
  have hA' := hA
  unfold StorageOk at hA'
  have h8L : 8 * b.m_Array.length = b.m_NumBits + pad b.m_NumBits := by
    unfold pad
    omega
  have h256L : (256:Nat) ^ b.m_Array.length = 2 ^ b.m_NumBits * 2 ^ pad b.m_NumBits := by
    rw [show (256:Nat) = 2 ^ 8 from by norm_num, ← pow_mul, h8L, pow_add]
  have hpow2 : 0 < 2 ^ pad b.m_NumBits := pow_pos (by norm_num) _
  have hbv : beVal b.m_Array = toVal b * 2 ^ pad b.m_NumBits :=
    beVal_eq_toVal b hA hB hS hn
  obtain ⟨hnb, hA1, hS1⟩ := increment_pres hA h32 hS h
  have hbv1 : beVal b'.m_Array = toVal b' * 2 ^ pad b'.m_NumBits :=
    beVal_eq_toVal b' hA1 hbytes0 hS1 (by rw [hnb]; exact hn)
  rw [hnb] at hbv1
  apply Nat.eq_of_mul_eq_mul_right hpow2
  rw [← hbv1, hval0, hbv, h256L]
  rw [show toVal b * 2 ^ pad b.m_NumBits + 2 ^ pad b.m_NumBits
      = (toVal b + 1) * 2 ^ pad b.m_NumBits from by ring]
  exact Nat.mul_mod_mul_right _ _ _

/-- `operator--` subtracts 1 from the bit-0-most-significant value, modulo
`2 ^ m_NumBits` (over ℕ, subtracting 1 modulo `M` is adding `M - 1`). -/
theorem toVal_of_decrement {b b' : bit_array_c} (hA : StorageOk b) (hB : Bytes256 b)
    (h32 : NumBits32 b) (hS : SpareLast b) (hn : 1 ≤ b.m_NumBits)
    (h : decrement b = some b') :
    toVal b' = (toVal b + (2 ^ b.m_NumBits - 1)) % 2 ^ b.m_NumBits := by
  obtain ⟨b₀, h0, hnb0, hlen0, hbytes0, hval0⟩ := decrement_spec b hA hB h32 hS hn
  rw [h] at h0
  obtain rfl : b' = b₀ := Option.some.inj h0
  have hA' := hA
  unfold StorageOk at hA'
  have h8L : 8 * b.m_Array.length = b.m_NumBits + pad b.m_NumBits := by
    unfold pad
    omega
  have h256L : (256:Nat) ^ b.m_Array.length = 2 ^ b.m_NumBits * 2 ^ pad b.m_NumBits := by
    rw [show (256:Nat) = 2 ^ 8 from by norm_num, ← pow_mul, h8L, pow_add]
  have hpow2 : 0 < 2 ^ pad b.m_NumBits := pow_pos (by norm_num) _
  have hbv : beVal b.m_Array = toVal b * 2 ^ pad b.m_NumBits :=
    beVal_eq_toVal b hA hB hS hn
  obtain ⟨hnb, hA1, hS1⟩ := decrement_pres hA h32 hS h
  have hbv1 : beVal b'.m_Array = toVal b' * 2 ^ pad b'.m_NumBits :=
    beVal_eq_toVal b' hA1 hbytes0 hS1 (by rw [hnb]; exact hn)
  rw [hnb] at hbv1
  apply Nat.eq_of_mul_eq_mul_right hpow2
  rw [← hbv1, hval0, hbv, h256L]
  rw [show toVal b * 2 ^ pad b.m_NumBits
      + (2 ^ b.m_NumBits * 2 ^ pad b.m_NumBits - 2 ^ pad b.m_NumBits)
      = (toVal b + (2 ^ b.m_NumBits - 1)) * 2 ^ pad b.m_NumBits from by
    rw [Nat.add_mul, Nat.sub_mul, Nat.one_mul]]
  exact Nat.mul_mod_mul_right _ _ _

/-! ### Claim C4 -/

/-- Claim C4: on every well-formed vector of length `n ≥ 1` whose spare
bits are zero, reading the bits as an unsigned integer with bit 0 most
significant, `operator++` takes the value `v` to `(v + 1) % 2 ^ n`,
`operator--` takes it to `(v - 1) % 2 ^ n` (written `(v + (2 ^ n - 1)) %
2 ^ n` over ℕ, so decrementing zero yields the all-ones value and
incrementing all-ones yields zero), and `operator--` after `operator++`
restores the value. -/
theorem c4_increment_decrement_value (b : bit_array_c) (hA : StorageOk b)
    (hB : Bytes256 b) (h32 : NumBits32 b) (hZ : SpareZero b) (hn : 1 ≤ b.m_NumBits) :
    ∃ b' b'', increment b = some b' ∧ decrement b = some b'' ∧
      toVal b' = (toVal b + 1) % 2 ^ b.m_NumBits ∧
      toVal b'' = (toVal b + (2 ^ b.m_NumBits - 1)) % 2 ^ b.m_NumBits ∧
      ∀ b₂, decrement b' = some b₂ → toVal b₂ = toVal b := by
  have hS : SpareLast b := (spareZero_iff b hA).mp hZ
  obtain ⟨b', hinc, hnb', hlen', hbytes', hval'⟩ := increment_spec b hA hB h32 hS hn
  obtain ⟨b'', hdec, hd2, hd3, hd4, hd5⟩ := decrement_spec b hA hB h32 hS hn
  refine ⟨b', b'', hinc, hdec, toVal_of_increment hA hB h32 hS hn hinc,
    toVal_of_decrement hA hB h32 hS hn hdec, ?_⟩
  intro b₂ hdec2
  obtain ⟨hnb1, hA1, hS1⟩ := increment_pres hA h32 hS hinc
  have h32' : NumBits32 b' := by
    show b'.m_NumBits < U32
    rw [hnb1]
    exact h32
  have hn1 : 1 ≤ b'.m_NumBits := by
    rw [hnb1]
    exact hn
  have hv2 := toVal_of_decrement hA1 hbytes' h32' hS1 hn1 hdec2
  rw [toVal_of_increment hA hB h32 hS hn hinc, hnb1] at hv2
  rw [hv2, Nat.mod_add_mod]
  have h2n : 1 ≤ 2 ^ b.m_NumBits := Nat.one_le_two_pow
  rw [show toVal b + 1 + (2 ^ b.m_NumBits - 1) = toVal b + 2 ^ b.m_NumBits from by omega]
  rw [Nat.add_mod_right]
  exact Nat.mod_eq_of_lt (toValAux_lt b b.m_NumBits)

/-- Concrete instance of the Claim C4 theorem: length 12, chars
`[0xAB, 0xC0]`, value `0xABC`. -/
theorem c4_increment_decrement_value_witness :
    StorageOk ⟨12, [171, 192]⟩ ∧ Bytes256 ⟨12, [171, 192]⟩ ∧
      NumBits32 ⟨12, [171, 192]⟩ ∧ SpareZero ⟨12, [171, 192]⟩ ∧
      1 ≤ (12:Nat) ∧
      ∃ b' b'', increment ⟨12, [171, 192]⟩ = some b' ∧
        decrement ⟨12, [171, 192]⟩ = some b'' ∧
        toVal b' = (toVal ⟨12, [171, 192]⟩ + 1) % 2 ^ 12 ∧
        toVal b'' = (toVal ⟨12, [171, 192]⟩ + (2 ^ 12 - 1)) % 2 ^ 12 ∧
        ∀ b₂, decrement b' = some b₂ → toVal b₂ = toVal ⟨12, [171, 192]⟩ :=
  ⟨by decide, by decide, by decide, by decide, by decide,
    c4_increment_decrement_value ⟨12, [171, 192]⟩ (by decide) (by decide) (by decide)
      (by decide) (by decide)⟩

/-! ### Claim C5 -/

/-- Claim C5: on the zero vector of length `n`, setting bit `i < n` makes
`operator[]` read bit `i` as true and every other in-range bit as false. -/
theorem c5_setBit_isolated (n i j : Nat) (hn : 0 < n) (hi : i < n) (hj : j < n)
    (hne : j ≠ i) :
    ∃ b', SetBit (mkBitArray n) i = some b' ∧
      getBit b' i = some true ∧ getBit b' j = some false := by
  have harr := mkBitArray_array n
  have hiLt : BIT_CHAR i < BITS_TO_CHARS n := BIT_CHAR_lt_chars hi
  have hjLt : BIT_CHAR j < BITS_TO_CHARS n := BIT_CHAR_lt_chars hj
  have hguard : ¬ ((mkBitArray n).m_NumBits ≤ i) := by
    rw [mkBitArray_numBits]; omega
  have hiLt' : BIT_CHAR i < (List.replicate (BITS_TO_CHARS n) 0).length := by
    simpa using hiLt
  refine ⟨⟨n, (List.replicate (BITS_TO_CHARS n) 0).set (BIT_CHAR i) (0 ||| BIT_IN_CHAR i)⟩,
    ?_, ?_, ?_⟩
  · rw [SetBit, if_neg hguard]
    rw [show (mkBitArray n).m_Array = List.replicate (BITS_TO_CHARS n) 0 from harr]
    rw [getByte, List.getElem?_replicate, if_pos hiLt]
    show (setByte _ _ _).bind _ = _
    rw [setByte, if_pos hiLt']
    rfl
  · rw [getBit_eq]
    show ((((List.replicate (BITS_TO_CHARS n) 0).set (BIT_CHAR i)
      (0 ||| BIT_IN_CHAR i))[BIT_CHAR i]?).map _) = some true
    rw [List.getElem?_set_self hiLt']
    show some ((0 ||| BIT_IN_CHAR i) &&& BIT_IN_CHAR i != 0) = some true
    rw [Nat.zero_or, Nat.and_self]
    simp [bne_iff_ne]
    exact (BIT_IN_CHAR_pos i).ne'
  · rw [getBit_eq]
    show ((((List.replicate (BITS_TO_CHARS n) 0).set (BIT_CHAR i)
      (0 ||| BIT_IN_CHAR i))[BIT_CHAR j]?).map _) = some false
    rcases eq_or_ne (BIT_CHAR j) (BIT_CHAR i) with hc | hc
    · rw [hc, List.getElem?_set_self hiLt']
      have hdi := Nat.div_add_mod i 8
      have hdj := Nat.div_add_mod j 8
      have hcc : i / 8 = j / 8 := hc.symm
      show some ((0 ||| BIT_IN_CHAR i) &&& BIT_IN_CHAR j != 0) = some false
      rw [Nat.zero_or, BIT_IN_CHAR_eq, BIT_IN_CHAR_eq]
      rw [two_pow_and_two_pow_ne (by omega)]
      rfl
    · rw [List.getElem?_set_ne (Ne.symm hc), List.getElem?_replicate, if_pos hjLt]
      show some ((0 &&& BIT_IN_CHAR j) != 0) = some false
      rw [Nat.zero_and]
      rfl

/-- Claim C5 witness: the statement evaluated at `n = 12`, `i = 9`,
`j = 2`. -/
theorem c5_setBit_isolated_witness :
    ∃ b', SetBit (mkBitArray 12) 9 = some b' ∧
      getBit b' 9 = some true ∧ getBit b' 2 = some false :=
  c5_setBit_isolated 12 9 2 (by decide) (by decide) (by decide) (by decide)

/-! ### Claim C6 -/

/-- Claim C6: whenever two vectors have different lengths, equality and all
four relational operators return false. -/
theorem c6_length_mismatch_comparisons (a b : bit_array_c)
    (h : a.m_NumBits ≠ b.m_NumBits) :
    beq a b = false ∧ blt a b = false ∧ ble a b = false ∧
      bgt a b = false ∧ bge a b = false := by
  unfold beq blt ble bgt bge
  simp [if_pos h]

/-- Claim C6 witness: lengths 8 and 16, the concrete scenario of the
specification. -/
theorem c6_length_mismatch_comparisons_witness :
    beq (mkBitArray 8) (mkBitArray 16) = false ∧
      blt (mkBitArray 8) (mkBitArray 16) = false ∧
      ble (mkBitArray 8) (mkBitArray 16) = false ∧
      bgt (mkBitArray 8) (mkBitArray 16) = false ∧
      bge (mkBitArray 8) (mkBitArray 16) = false :=
  c6_length_mismatch_comparisons _ _ (by decide)

/-! ### Claim C7 -/

/-- One byte through two rounds of complement-and-mask: restores the byte
when its masked (spare) bits are zero. -/
theorem double_not_byte (r : Nat) (h1 : 1 ≤ r) (h2 : r < 8) :
    ∀ c < 256, 2 ^ ((8 - r) % 8) ∣ c →
      (255 - ((255 - c) &&& ((255 <<< (8 - r)) % 256))) &&& ((255 <<< (8 - r)) % 256) = c := by
  interval_cases r <;> decide

/-- Read-modify-write of one char, the common tail of `Not` and
`operator>>=`. -/
theorem rmw_eq (a : List Nat) (i : Nat) (g : Nat → Nat) (n : Nat) (h : i < a.length) :
    ((getByte a i : Option Nat) >>= fun c => setByte a i (g c) >>=
        fun arr2 => pure (bit_array_c.mk n arr2))
      = some (bit_array_c.mk n (a.set i (g (a.getD i 0)))) := by
  rw [getByte_some h]
  show setByte a i (g (a.getD i 0)) >>= (fun arr2 => pure (bit_array_c.mk n arr2)) = _
  rw [setByte_some _ h]
  rfl

/-- Claim C7, counterexample: on the length-4 vector built from the buffer
`[0x0F]` (legitimate per Invariant A, but with nonzero spare bits),
applying `operator~` twice yields the all-zero vector, which compares
unequal to the original: the first `Not` re-masks the spare bits away. -/
theorem c7_double_not_counterexample :
    notOp (mkFromVect [15] 4) = some (bit_array_c.mk 4 [240]) ∧
      notOp (bit_array_c.mk 4 [240]) = some (bit_array_c.mk 4 [0]) ∧
      beq (bit_array_c.mk 4 [0]) (mkFromVect [15] 4) = false := by
  refine ⟨by rfl, by rfl, by decide⟩

/-- Claim C7, amended: applying `operator~` twice restores the vector, up
to `operator==`, for every vector whose spare bits are zero (the data
model invariants — storage size `ceil (length / 8)`, chars below 256,
length below `2 ^ 32` — are assumed as always). -/
theorem c7_double_not (v : bit_array_c) (hA : StorageOk v) (hB : Bytes256 v)
    (h32 : NumBits32 v) (hS : SpareZero v) :
    ∃ w w', notOp v = some w ∧ notOp w = some w' ∧ beq w' v = true := by
  have hveta : bit_array_c.mk v.m_NumBits v.m_Array = v := rfl
  by_cases hL : v.m_Array.length = 0
  · refine ⟨v, v, ?_, ?_, ?_⟩
    · show bitNot (bit_array_c.mk v.m_NumBits v.m_Array) = some v
      rw [hveta, bitNot, if_pos hL]
    · show bitNot (bit_array_c.mk v.m_NumBits v.m_Array) = some v
      rw [hveta, bitNot, if_pos hL]
    · unfold beq
      simp
  · have hLS : SpareLast v := (spareZero_iff v hA).mp hS
    have hL1 : 1 ≤ v.m_Array.length := by omega
    obtain ⟨hidx, hn1⟩ := lastIdx_eq hA h32 hL
    by_cases hbits : v.m_NumBits % CHAR_BIT = 0
    · -- full final char: a plain double complement
      have h1 : bitNot v = some (bit_array_c.mk v.m_NumBits
          (v.m_Array.map (fun c => UCHAR_MAX - c))) := by
        simp only [bitNot]
        rw [if_neg hL, if_neg (by simpa using hbits)]
        rfl
      have hwL : ¬ ((v.m_Array.map (fun c => UCHAR_MAX - c)).length = 0) := by
        simpa using hL
      have h2 : bitNot (bit_array_c.mk v.m_NumBits
          (v.m_Array.map (fun c => UCHAR_MAX - c))) = some (bit_array_c.mk v.m_NumBits
          ((v.m_Array.map (fun c => UCHAR_MAX - c)).map (fun c => UCHAR_MAX - c))) := by
        simp only [bitNot]
        rw [if_neg hwL, if_neg (by simpa using hbits)]
        rfl
      have harr : (v.m_Array.map (fun c => UCHAR_MAX - c)).map (fun c => UCHAR_MAX - c)
          = v.m_Array := by
        apply List.ext_getElem (by simp)
        intro i hi1 hi2
        have hmem : v.m_Array[i] ∈ v.m_Array := List.getElem_mem hi2
        have hlt : v.m_Array[i] < 256 := hB _ hmem
        simp only [List.getElem_map]
        show UCHAR_MAX - (UCHAR_MAX - v.m_Array[i]) = v.m_Array[i]
        show 255 - (255 - v.m_Array[i]) = v.m_Array[i]
        omega
      refine ⟨_, _, h1, h2, ?_⟩
      rw [harr, hveta]
      unfold beq
      simp
    · -- partial final char: complement, mask, and restore bytewise
      have hbits' : v.m_NumBits % CHAR_BIT ≠ 0 := hbits
      have hmapb : v.m_Array.length - 1 < (v.m_Array.map (fun c => UCHAR_MAX - c)).length := by
        simp
        omega
      have h1 : bitNot v = some (bit_array_c.mk v.m_NumBits
          ((v.m_Array.map (fun c => UCHAR_MAX - c)).set (v.m_Array.length - 1)
            ((v.m_Array.map (fun c => UCHAR_MAX - c)).getD (v.m_Array.length - 1) 0 &&&
              (UCHAR_MAX <<< (CHAR_BIT - v.m_NumBits % CHAR_BIT)) % 256))) := by
        simp only [bitNot]
        rw [if_neg hL, if_pos hbits', hidx]
        exact rmw_eq _ _ _ _ hmapb
      set w1 : List Nat := (v.m_Array.map (fun c => UCHAR_MAX - c)).set (v.m_Array.length - 1)
        ((v.m_Array.map (fun c => UCHAR_MAX - c)).getD (v.m_Array.length - 1) 0 &&&
          (UCHAR_MAX <<< (CHAR_BIT - v.m_NumBits % CHAR_BIT)) % 256) with hw1
      have hw1len : w1.length = v.m_Array.length := by
        rw [hw1, List.length_set, List.length_map]
      have hw1L : ¬ ((bit_array_c.mk v.m_NumBits w1).m_Array.length = 0) := by
        show ¬ (w1.length = 0)
        omega
      have hw1b : v.m_Array.length - 1 < (w1.map (fun c => UCHAR_MAX - c)).length := by
        simp [hw1len]
        omega
      have h2 : bitNot (bit_array_c.mk v.m_NumBits w1) = some (bit_array_c.mk v.m_NumBits
          ((w1.map (fun c => UCHAR_MAX - c)).set (v.m_Array.length - 1)
            ((w1.map (fun c => UCHAR_MAX - c)).getD (v.m_Array.length - 1) 0 &&&
              (UCHAR_MAX <<< (CHAR_BIT - v.m_NumBits % CHAR_BIT)) % 256))) := by
        simp only [bitNot]
        rw [if_neg hw1L, if_pos hbits']
        rw [show BIT_CHAR (pred32 (bit_array_c.mk v.m_NumBits w1).m_NumBits)
          = v.m_Array.length - 1 from hidx]
        exact rmw_eq _ _ _ _ hw1b
      have harr : (w1.map (fun c => UCHAR_MAX - c)).set (v.m_Array.length - 1)
          ((w1.map (fun c => UCHAR_MAX - c)).getD (v.m_Array.length - 1) 0 &&&
            (UCHAR_MAX <<< (CHAR_BIT - v.m_NumBits % CHAR_BIT)) % 256) = v.m_Array := by
        apply List.ext_getElem (by simp [hw1len])
        intro i hi1 hi2
        have hmem : v.m_Array[i] ∈ v.m_Array := List.getElem_mem hi2
        have hclt : v.m_Array[i] < 256 := hB _ hmem
        rcases eq_or_ne i (v.m_Array.length - 1) with hie | hie
        · -- the final char: two rounds of complement and mask
          subst hie
          have e1 : (w1.map (fun c => UCHAR_MAX - c)).getD (v.m_Array.length - 1) 0
              = UCHAR_MAX - w1.getD (v.m_Array.length - 1) 0 := by
            rw [List.getD_eq_getElem _ _ hw1b, List.getElem_map,
              List.getD_eq_getElem _ _ (by omega)]
          have e2 : w1.getD (v.m_Array.length - 1) 0
              = (UCHAR_MAX - v.m_Array.getD (v.m_Array.length - 1) 0) &&&
                (UCHAR_MAX <<< (CHAR_BIT - v.m_NumBits % CHAR_BIT)) % 256 := by
            rw [hw1, getD_set_self _ hmapb]
            congr 1
            rw [List.getD_eq_getElem _ _ hmapb, List.getElem_map,
              List.getD_eq_getElem _ _ (by omega)]
          rw [List.getElem_set_self hi1, e1, e2]
          have hgd : v.m_Array.getD (v.m_Array.length - 1) 0 = v.m_Array[v.m_Array.length - 1] :=
            List.getD_eq_getElem _ _ (by omega)
          unfold SpareLast at hLS
          rw [hgd] at hLS ⊢
          have hr1 : 1 ≤ v.m_NumBits % 8 := by
            have h8 : v.m_NumBits % 8 ≠ 0 := hbits'
            omega
          have hr8 : v.m_NumBits % 8 < 8 := Nat.mod_lt _ (by norm_num)
          exact double_not_byte (v.m_NumBits % 8) hr1 hr8 _ hclt hLS
        · -- other chars: a plain double complement
          rw [← List.getD_eq_getElem _ 0 hi1, ← List.getD_eq_getElem _ 0 hi2]
          rw [getD_set_ne _ (Ne.symm hie), getD_map_lt (show i < w1.length by omega)]
          show UCHAR_MAX - w1.getD i 0 = v.m_Array.getD i 0
          rw [hw1, getD_set_ne _ (by omega), getD_map_lt hi2]
          have hdlt : v.m_Array.getD i 0 < 256 := by
            rw [List.getD_eq_getElem _ _ hi2]
            exact hclt
          show 255 - (255 - v.m_Array.getD i 0) = v.m_Array.getD i 0
          omega
      refine ⟨_, _, h1, h2, ?_⟩
      rw [harr, hveta]
      unfold beq
      simp

/-- Claim C7 witness for the amended statement: a length-12 vector with
zero spare bits. -/
theorem c7_double_not_witness :
    ∃ w w', notOp (bit_array_c.mk 12 [90, 160]) = some w ∧ notOp w = some w' ∧
      beq w' (bit_array_c.mk 12 [90, 160]) = true :=
  c7_double_not _ (by decide) (by decide) (by decide) (by decide)

/-! ### Claim C8 -/

/-- Claim C8: when the operand lengths differ, each in-place bitwise
operator returns the left operand completely unchanged (the embedding is
functional, so the right operand is never mutated by construction). -/
theorem c8_length_mismatch_noop (a b : bit_array_c)
    (h : a.m_NumBits ≠ b.m_NumBits) :
    andAssign a b = some a ∧ xorAssign a b = some a ∧ orAssign a b = some a := by
  unfold andAssign xorAssign orAssign
  simp [if_pos h]

/-- Claim C8 witness: lengths 8 and 16 with nonzero content. -/
theorem c8_length_mismatch_noop_witness :
    andAssign (mkFromVect [240] 8) (mkFromVect [15, 0] 16) = some (mkFromVect [240] 8) ∧
      xorAssign (mkFromVect [240] 8) (mkFromVect [15, 0] 16) = some (mkFromVect [240] 8) ∧
      orAssign (mkFromVect [240] 8) (mkFromVect [15, 0] 16) = some (mkFromVect [240] 8) :=
  c8_length_mismatch_noop _ _ (by decide)

/-! ### Claim C9 -/

/-- Claim C9: the buffer constructor stores the supplied chars verbatim,
with no masking of spare bits; hence a constructed vector whose spare bits
are nonzero is distinguishable by `operator==` from any vector of the same
length whose spare bits are zero. -/
theorem c9_fromBuffer_verbatim (vect : List Nat) (n : Nat) (w : bit_array_c)
    (hnz : ¬ SpareZero (mkFromVect vect n)) (hw : w.m_NumBits = n)
    (hwz : SpareZero w) :
    (mkFromVect vect n).m_Array = vect ∧ beq (mkFromVect vect n) w = false := by
  refine ⟨rfl, ?_⟩
  subst hw
  rw [beq, if_neg (by simp [mkFromVect])]
  apply decide_eq_false
  intro heq
  apply hnz
  show SpareZero ⟨w.m_NumBits, vect⟩
  have : vect = w.m_Array := heq
  rw [this]
  exact hwz

/-- Claim C9 witness: buffer `[15]` with length 4 against the masked
vector `[0]` of length 4. -/
theorem c9_fromBuffer_verbatim_witness :
    (mkFromVect [15] 4).m_Array = [15] ∧
      beq (mkFromVect [15] 4) ⟨4, [0]⟩ = false :=
  c9_fromBuffer_verbatim [15] 4 ⟨4, [0]⟩ (by decide) (by decide) (by decide)

end BitArrayCpp
